import Mathlib

/-!
Verification of the LaTeX extraction / marker substitution / marker resolution
pipeline of `src/components/markdown.tsx` (the `NonMemoizedMarkdown` component
and its `renderer` callbacks), shallowly embedded over `List Char`.

The embedding follows the source:
* the `useMemo` extraction (two block regex passes, then two inline regex
  passes, each a global lazy-match replace that appends to one `latexBlocks`
  array and substitutes `LATEXBLOCK<n>END` / `LATEXINLINE<n>END` markers);
* the `renderer.text` callback (short-circuit when no marker occurs, a
  single-marker fast path, and a general path that collects the matches of
  both marker patterns, sorts them by start offset and walks them emitting
  literal and math units);
* the composite-node renderers (`paragraph`, `heading`, `listItem`,
  `blockquote`, `strong`, `link`, `tableCell`) and their has-Latex-child
  checks;
* the top-level JSON branch of the component.
-/

set_option maxHeartbeats 1000000
set_option maxRecDepth 4000

/-- One entry of the `latexBlocks` array: `{ id, content, isBlock }` where
`content` is the full regex match (delimiters included). -/
structure Span where
  id : List Char
  content : List Char
  isBlock : Bool
deriving DecidableEq

/-! ## Decimal rendering of the marker counter

Models the JavaScript template-literal formatting of `latexBlocks.length`
(`LATEXBLOCK${latexBlocks.length}END`): a number is rendered as its usual
base-10 digit string. -/

/-- The character for a single decimal digit value. -/
def decDigit (n : Nat) : Char := Char.ofNat (48 + n)

/-- Fuel-driven base-10 rendering, most significant digit first. -/
def natToDecAux : Nat → Nat → List Char
  | 0, _ => []
  | fuel + 1, n =>
    if n < 10 then [decDigit n]
    else natToDecAux fuel (n / 10) ++ [decDigit (n % 10)]

/-- Base-10 rendering of a natural number. -/
def natToDec (n : Nat) : List Char := natToDecAux (n + 1) n

/-- Decimal value of a digit string (used only to invert `natToDec`). -/
def decVal (l : List Char) : Nat := l.foldl (fun a c => 10 * a + (c.toNat - 48)) 0

theorem decVal_append (l : List Char) (c : Char) :
    decVal (l ++ [c]) = 10 * decVal l + (c.toNat - 48) := by
  simp [decVal, List.foldl_append]

theorem decDigit_toNat {n : Nat} (h : n < 10) : (decDigit n).toNat = 48 + n := by
  interval_cases n <;> decide

theorem decDigit_isDigit {n : Nat} (h : n < 10) : (decDigit n).isDigit = true := by
  interval_cases n <;> decide

theorem natToDecAux_spec : ∀ fuel n, n < fuel →
    decVal (natToDecAux fuel n) = n ∧ natToDecAux fuel n ≠ [] ∧
      ∀ c ∈ natToDecAux fuel n, c.isDigit = true := by
  intro fuel
  induction fuel with
  | zero => intro n h; omega
  | succ f ih =>
    intro n h
    by_cases h10 : n < 10
    · refine ⟨?_, by simp [natToDecAux, h10], ?_⟩
      · simp [natToDecAux, h10, decVal, decDigit_toNat h10]
      · intro c hc
        simp [natToDecAux, h10] at hc
        subst hc
        exact decDigit_isDigit h10
    · have hdiv : n / 10 < f := by
        have h1 : n / 10 < n := Nat.div_lt_self (by omega) (by omega)
        omega
      obtain ⟨hval, hne, hdig⟩ := ih (n / 10) hdiv
      refine ⟨?_, by simp [natToDecAux, h10], ?_⟩
      · have hlt : n % 10 < 10 := Nat.mod_lt _ (by omega)
        simp [natToDecAux, h10, decVal_append, hval, decDigit_toNat hlt]
        omega
      · intro c hc
        simp [natToDecAux, h10] at hc
        rcases hc with hc | hc
        · exact hdig c hc
        · subst hc
          exact decDigit_isDigit (Nat.mod_lt _ (by omega))

theorem decVal_natToDec (n : Nat) : decVal (natToDec n) = n :=
  (natToDecAux_spec (n + 1) n (Nat.lt_succ_self n)).1

theorem natToDec_ne_nil (n : Nat) : natToDec n ≠ [] :=
  (natToDecAux_spec (n + 1) n (Nat.lt_succ_self n)).2.1

theorem natToDec_digits {n : Nat} : ∀ c ∈ natToDec n, c.isDigit = true :=
  (natToDecAux_spec (n + 1) n (Nat.lt_succ_self n)).2.2

theorem natToDec_injective : Function.Injective natToDec := by
  intro a b h
  have := decVal_natToDec a
  rw [h, decVal_natToDec] at this
  omega

/-! ## Marker tokens

`LATEXBLOCK<n>END` and `LATEXINLINE<n>END`, as produced by the extraction
(`const id = ...`) and re-parsed by `renderer.text`
(`/LATEXBLOCK(\d+)END/`, `/LATEXINLINE(\d+)END/`). -/

/-- The prefix of block marker tokens. -/
def bPre : List Char := "LATEXBLOCK".toList

/-- The prefix of inline marker tokens. -/
def iPre : List Char := "LATEXINLINE".toList

/-- The suffix of marker tokens. -/
def endTok : List Char := "END".toList

/-- The marker id generated for the `n`-th extracted span
(`LATEXBLOCK${n}END` resp. `LATEXINLINE${n}END`). -/
def markerId (isBlock : Bool) (n : Nat) : List Char :=
  (if isBlock then bPre else iPre) ++ natToDec n ++ endTok

/-- The shape of a marker token: prefix, at least one decimal digit, `END`. -/
def TokShape (pre tok : List Char) : Prop :=
  ∃ ds, ds ≠ [] ∧ (∀ c ∈ ds, c.isDigit = true) ∧ tok = pre ++ ds ++ endTok

theorem tokShape_markerId (b : Bool) (n : Nat) :
    TokShape (if b then bPre else iPre) (markerId b n) :=
  ⟨natToDec n, natToDec_ne_nil n, fun c hc => natToDec_digits c hc, rfl⟩

theorem markerId_length_block (n : Nat) : 14 ≤ (markerId true n).length := by
  have := natToDec_ne_nil n
  have h1 : 1 ≤ (natToDec n).length := by
    cases hn : natToDec n with
    | nil => exact absurd hn this
    | cons a l => simp
  simp [markerId, bPre, endTok]
  omega

theorem markerId_length_inline (n : Nat) : 15 ≤ (markerId false n).length := by
  have := natToDec_ne_nil n
  have h1 : 1 ≤ (natToDec n).length := by
    cases hn : natToDec n with
    | nil => exact absurd hn this
    | cons a l => simp
  simp [markerId, iPre, endTok]
  omega

theorem markerId_injective : ∀ b n b' n', markerId b n = markerId b' n' → b = b' ∧ n = n' := by
  have key : ∀ n n', bPre ++ natToDec n ++ endTok = iPre ++ natToDec n' ++ endTok → False := by
    intro n n' h
    have h5 : (bPre ++ natToDec n ++ endTok).get? 5 = (iPre ++ natToDec n' ++ endTok).get? 5 := by
      rw [h]
    rw [List.append_assoc, List.append_assoc] at h5
    rw [List.get?_append (by simp [bPre]), List.get?_append (by simp [iPre])] at h5
    simp [bPre, iPre] at h5
  intro b n b' n' h
  unfold markerId at h
  cases b <;> cases b' <;> simp at h
  · exact ⟨rfl, natToDec_injective h⟩
  · exact absurd (h.symm) (fun hh => key n' n hh)
  · exact absurd h (fun hh => key n n' hh)
  · exact ⟨rfl, natToDec_injective h⟩

/-! ## Generic scanning primitives

Lazy (non-greedy) regex matching of the source's delimiter patterns is
modelled by literal-prefix stripping plus a search for the first occurrence
of the closing delimiter. -/

/-- Strip a literal pattern from the head of the input, if present. -/
def dropLit (pat l : List Char) : Option (List Char) :=
  if l.take pat.length = pat then some (l.drop pat.length) else none

theorem dropLit_eq {pat l r : List Char} (h : dropLit pat l = some r) : l = pat ++ r := by
  unfold dropLit at h
  split at h
  · next heq =>
    cases h
    conv_lhs => rw [← List.take_append_drop pat.length l]
    rw [heq]
  · exact absurd h (by simp)

theorem dropLit_self (pat r : List Char) : dropLit pat (pat ++ r) = some r := by
  unfold dropLit
  rw [List.take_left, List.drop_left]
  simp

/-- Split the input at the first occurrence of `close`:
`findClose close l = some (mid, rest)` iff `l = mid ++ close ++ rest` with
`mid` minimal.  This is the lazy `[\s\S]*?` search of the block patterns. -/
def findClose (close : List Char) : List Char → Option (List Char × List Char)
  | [] => none
  | c :: cs =>
    if (c :: cs).take close.length = close then some ([], (c :: cs).drop close.length)
    else
      match findClose close cs with
      | some (mid, rest) => some (c :: mid, rest)
      | none => none

theorem findClose_eq {close : List Char} :
    ∀ {l mid rest}, findClose close l = some (mid, rest) → l = mid ++ close ++ rest := by
  intro l
  induction l with
  | nil => intro mid rest h; simp [findClose] at h
  | cons c cs ih =>
    intro mid rest h
    unfold findClose at h
    split at h
    · next heq =>
      cases h
      simp
      conv_lhs => rw [← List.take_append_drop close.length (c :: cs)]
      rw [heq]
    · revert h
      split
      · next mid' rest' hrec =>
        intro h
        cases h
        have := ih hrec
        simp [this]
      · intro h; exact absurd h (by simp)

/-- The lazy search for the closing `$` of the single-dollar inline pattern:
the middle may not contain `$` or a newline (`[^\$\n]`). -/
def findDollarClose : List Char → Option (List Char × List Char)
  | [] => none
  | c :: cs =>
    if c = '$' then some ([], cs)
    else if c = '\n' then none
    else
      match findDollarClose cs with
      | some (mid, rest) => some (c :: mid, rest)
      | none => none

theorem findDollarClose_eq :
    ∀ {l mid rest}, findDollarClose l = some (mid, rest) → l = mid ++ '$' :: rest := by
  intro l
  induction l with
  | nil => intro mid rest h; simp [findDollarClose] at h
  | cons c cs ih =>
    intro mid rest h
    unfold findDollarClose at h
    split at h
    · next heq => cases h; simp [heq]
    · split at h
      · exact absurd h (by simp)
      · revert h
        split
        · next mid' rest' hrec =>
          intro h
          cases h
          have := ih hrec
          simp [this]
        · intro h; exact absurd h (by simp)

/-! ## The four delimiter patterns of the extraction

In source order:
block pass 1 `/\\\[([\s\S]*?)\\\]/g`, block pass 2 `/\$\$([\s\S]*?)\$\$/g`,
inline pass 1 `/\\\(([\s\S]*?)\\\)/g`, inline pass 2 `/\$(?![{#])[^\$\n]+?\$/g`.
Each attempt tries to match at the head of the input and returns the full
match (delimiters included) and the rest of the input. -/

/-- The characters of the opening `\[` delimiter. -/
def openBracket : List Char := ['\\', '[']

/-- The characters of the closing `\]` delimiter. -/
def closeBracket : List Char := ['\\', ']']

/-- The characters of the `$$` delimiter. -/
def dollars : List Char := ['$', '$']

/-- The characters of the opening `\(` delimiter. -/
def openParen : List Char := ['\\', '(']

/-- The characters of the closing `\)` delimiter. -/
def closeParen : List Char := ['\\', ')']

/-- Head match for a paired-delimiter pattern with lazy middle. -/
def attemptDelim (op cl l : List Char) : Option (List Char × List Char) :=
  match dropLit op l with
  | none => none
  | some r =>
    match findClose cl r with
    | none => none
    | some (mid, rest) => some (op ++ mid ++ cl, rest)

/-- Head match for `\[ ... \]`. -/
def attemptBlockBracket (l : List Char) : Option (List Char × List Char) :=
  attemptDelim openBracket closeBracket l

/-- Head match for `$$ ... $$`. -/
def attemptDollarDollar (l : List Char) : Option (List Char × List Char) :=
  attemptDelim dollars dollars l

/-- Head match for `\( ... \)`. -/
def attemptParen (l : List Char) : Option (List Char × List Char) :=
  attemptDelim openParen closeParen l

/-- Head match for `$(?![{#])[^\$\n]+?\$`: a dollar not followed by a brace
or hash, a nonempty middle without dollars or newlines, a closing dollar. -/
def attemptSingleDollar (l : List Char) : Option (List Char × List Char) :=
  match l with
  | [] => none
  | c :: cs =>
    if c = '$' then
      if cs.head? = some (Char.ofNat 123) ∨ cs.head? = some '#' then none
      else
        match findDollarClose cs with
        | some (mid, rest) => if mid = [] then none else some ('$' :: mid ++ ['$'], rest)
        | none => none
    else none

theorem attemptDelim_eq {op cl l m r : List Char} (hop : op ≠ [])
    (h : attemptDelim op cl l = some (m, r)) :
    l = m ++ r ∧ m ≠ [] ∧ ∃ mid, m = op ++ mid ++ cl := by
  unfold attemptDelim at h
  revert h
  split
  · intro h; exact absurd h (by simp)
  · next r1 hdrop =>
    split
    · intro h; exact absurd h (by simp)
    · next mid rest hclose =>
      intro h
      cases h
      have h1 := dropLit_eq hdrop
      have h2 := findClose_eq hclose
      refine ⟨?_, ?_, mid, rfl⟩
      · rw [h1, h2]; simp
      · intro hm
        have : op = [] := by
          cases op with
          | nil => rfl
          | cons a as => simp at hm
        exact hop this

theorem attemptBlockBracket_eq {l m r : List Char} (h : attemptBlockBracket l = some (m, r)) :
    l = m ++ r ∧ m ≠ [] ∧ ∃ mid, m = openBracket ++ mid ++ closeBracket :=
  attemptDelim_eq (by simp [openBracket]) h

theorem attemptDollarDollar_eq {l m r : List Char} (h : attemptDollarDollar l = some (m, r)) :
    l = m ++ r ∧ m ≠ [] ∧ ∃ mid, m = dollars ++ mid ++ dollars :=
  attemptDelim_eq (by simp [dollars]) h

theorem attemptParen_eq {l m r : List Char} (h : attemptParen l = some (m, r)) :
    l = m ++ r ∧ m ≠ [] ∧ ∃ mid, m = openParen ++ mid ++ closeParen :=
  attemptDelim_eq (by simp [openParen]) h

theorem attemptSingleDollar_eq {l m r : List Char} (h : attemptSingleDollar l = some (m, r)) :
    l = m ++ r ∧ m ≠ [] ∧ ∃ mid, mid ≠ [] ∧ m = '$' :: mid ++ ['$'] := by
  unfold attemptSingleDollar at h
  revert h
  match l with
  | [] => intro h; exact absurd h (by simp)
  | c :: cs =>
    simp only
    split
    · next hc =>
      split
      · intro h; exact absurd h (by simp)
      · split
        · next mid rest hfind =>
          split
          · intro h; exact absurd h (by simp)
          · next hmid =>
            intro h
            cases h
            have h1 := findDollarClose_eq hfind
            subst hc
            refine ⟨by simp [h1], by simp, mid, hmid, rfl⟩
        · intro h; exact absurd h (by simp)
    · intro h; exact absurd h (by simp)

/-! ## The global-replace scan of one extraction pass

`modifiedContent.replace(pattern, match => { const id = ...; latexBlocks.push(...);
return id; })` with a `/g` regex: scan left to right, try the pattern at each
position, on a match substitute the generated marker id and record the span,
otherwise keep the character.  `k` is `latexBlocks.length`, the marker counter
shared by all four passes.  The fuel is the length of the scanned text; each
step consumes at least one character. -/

/-- One global-replace pass.  Returns the substituted text and the spans
recorded by this pass (in order). -/
def scanRepF (attempt : List Char → Option (List Char × List Char)) (isBlock : Bool) :
    Nat → Nat → List Char → List Char × List Span
  | _, 0, l => (l, [])
  | k, fuel + 1, l =>
    match l with
    | [] => ([], [])
    | c :: cs =>
      match attempt (c :: cs) with
      | some (m, rest) =>
        let out := scanRepF attempt isBlock (k + 1) fuel rest
        (markerId isBlock k ++ out.1, ⟨markerId isBlock k, m, isBlock⟩ :: out.2)
      | none =>
        let out := scanRepF attempt isBlock k fuel cs
        (c :: out.1, out.2)

/-- One global-replace pass with adequate fuel. -/
def scanRep (attempt : List Char → Option (List Char × List Char)) (isBlock : Bool)
    (k : Nat) (l : List Char) : List Char × List Span :=
  scanRepF attempt isBlock k l.length l

/-- Relational description of one global-replace pass. -/
inductive SRel (attempt : List Char → Option (List Char × List Char)) (isBlock : Bool) :
    Nat → List Char → List Char → List Span → Prop
  | nil (k : Nat) : SRel attempt isBlock k [] [] []
  | step (k : Nat) (c : Char) (cs out : List Char) (sps : List Span) :
      attempt (c :: cs) = none → SRel attempt isBlock k cs out sps →
      SRel attempt isBlock k (c :: cs) (c :: out) sps
  | rep (k : Nat) (c : Char) (cs m rest out : List Char) (sps : List Span) :
      attempt (c :: cs) = some (m, rest) → SRel attempt isBlock (k + 1) rest out sps →
      SRel attempt isBlock k (c :: cs) (markerId isBlock k ++ out)
        (⟨markerId isBlock k, m, isBlock⟩ :: sps)

/-- A well-behaved attempt function: a match is a nonempty prefix. -/
def AttemptOk (attempt : List Char → Option (List Char × List Char)) : Prop :=
  ∀ l m r, attempt l = some (m, r) → l = m ++ r ∧ m ≠ []

theorem attemptOk_blockBracket : AttemptOk attemptBlockBracket :=
  fun _ _ _ h => ⟨(attemptBlockBracket_eq h).1, (attemptBlockBracket_eq h).2.1⟩

theorem attemptOk_dollarDollar : AttemptOk attemptDollarDollar :=
  fun _ _ _ h => ⟨(attemptDollarDollar_eq h).1, (attemptDollarDollar_eq h).2.1⟩

theorem attemptOk_paren : AttemptOk attemptParen :=
  fun _ _ _ h => ⟨(attemptParen_eq h).1, (attemptParen_eq h).2.1⟩

theorem attemptOk_singleDollar : AttemptOk attemptSingleDollar :=
  fun _ _ _ h => ⟨(attemptSingleDollar_eq h).1, (attemptSingleDollar_eq h).2.1⟩

theorem scanRepF_srel {attempt} (hok : AttemptOk attempt) (isBlock : Bool) :
    ∀ fuel k l, l.length ≤ fuel →
      SRel attempt isBlock k l (scanRepF attempt isBlock k fuel l).1
        (scanRepF attempt isBlock k fuel l).2 := by
  intro fuel
  induction fuel with
  | zero =>
    intro k l hl
    have : l = [] := List.length_eq_zero.mp (Nat.le_zero.mp hl)
    subst this
    exact SRel.nil k
  | succ f ih =>
    intro k l hl
    match l with
    | [] => exact SRel.nil k
    | c :: cs =>
      simp only [scanRepF]
      cases hatt : attempt (c :: cs) with
      | none =>
        simp only [hatt]
        exact SRel.step k c cs _ _ hatt (ih k cs (by simp at hl; omega))
      | some p =>
        obtain ⟨m, rest⟩ := p
        simp only [hatt]
        obtain ⟨heq, hne⟩ := hok _ _ _ hatt
        have hrest : rest.length ≤ f := by
          have : (c :: cs).length = m.length + rest.length := by rw [heq]; simp
          have hm : 1 ≤ m.length := by
            cases m with
            | nil => exact absurd rfl hne
            | cons a as => simp
          simp at hl this
          omega
        exact SRel.rep k c cs m rest _ _ hatt (ih (k + 1) rest hrest)

theorem scanRep_srel {attempt} (hok : AttemptOk attempt) (isBlock : Bool) (k : Nat)
    (l : List Char) :
    SRel attempt isBlock k l (scanRep attempt isBlock k l).1 (scanRep attempt isBlock k l).2 :=
  scanRepF_srel hok isBlock l.length k l (Nat.le_refl _)

/-- A pass that records no span leaves the text unchanged. -/
theorem SRel.out_eq_of_nil {attempt isBlock k l out}
    (h : SRel attempt isBlock k l out []) : out = l := by
  generalize hsps : ([] : List Span) = sps at h
  induction h with
  | nil => rfl
  | step k c cs out sps hatt hrec ih => rw [ih hsps]
  | rep k c cs m rest out sps hatt hrec ih => simp at hsps

/-- Every span recorded by a pass is a contiguous substring of the scanned
text, and is the full match of the pass's pattern at that position. -/
theorem SRel.content_sub {attempt isBlock k l out sps} (hok : AttemptOk attempt)
    (h : SRel attempt isBlock k l out sps) :
    ∀ sp ∈ sps, (∃ p q, l = p ++ sp.content ++ q ∧ attempt (sp.content ++ q) = some (sp.content, q))
      ∧ sp.isBlock = isBlock := by
  induction h with
  | nil => intro sp hsp; simp at hsp
  | step k c cs out sps hatt hrec ih =>
    intro sp hsp
    obtain ⟨⟨p, q, hl, hm⟩, hb⟩ := ih sp hsp
    exact ⟨⟨c :: p, q, by simp [hl], hm⟩, hb⟩
  | rep k c cs m rest out sps hatt hrec ih =>
    intro sp hsp
    have heq : c :: cs = m ++ rest := (hok _ _ _ hatt).1
    cases hsp with
    | head =>
      refine ⟨⟨[], rest, by simpa using heq, ?_⟩, rfl⟩
      simpa [← heq] using hatt
    | tail _ hsp =>
      obtain ⟨⟨p, q, hl, hm⟩, hb⟩ := ih sp hsp
      refine ⟨⟨m ++ p, q, ?_, hm⟩, hb⟩
      rw [heq, hl]
      simp

/-- Consecutive ids: the `i`-th span recorded from counter `k` onwards gets
marker id `markerId isBlock (k + i)`. -/
def IdsFrom (k : Nat) (sps : List Span) : Prop :=
  ∀ i sp, sps[i]? = some sp → sp.id = markerId sp.isBlock (k + i)

theorem SRel.ids_from {attempt isBlock k l out sps}
    (h : SRel attempt isBlock k l out sps) : IdsFrom k sps := by
  induction h with
  | nil => intro i sp hsp; simp at hsp
  | step k c cs out sps hatt hrec ih => exact ih
  | rep k c cs m rest out sps hatt hrec ih =>
    intro i sp hsp
    match i with
    | 0 =>
      simp at hsp
      subst hsp
      simp
    | j + 1 =>
      simp at hsp
      have := ih j sp hsp
      rw [this]
      congr 1
      omega

/-- Whether the pattern matches anywhere in the text (models `regex.test`
for the extraction patterns, used for the no-match identity). -/
def hasAttF (attempt : List Char → Option (List Char × List Char)) :
    Nat → List Char → Bool
  | 0, _ => false
  | fuel + 1, l =>
    match l with
    | [] => false
    | c :: cs =>
      match attempt (c :: cs) with
      | some _ => true
      | none => hasAttF attempt fuel cs

/-- Whether the pattern matches anywhere in the text. -/
def hasAtt (attempt : List Char → Option (List Char × List Char)) (l : List Char) : Bool :=
  hasAttF attempt l.length l

theorem scanRepF_no_match {attempt isBlock} :
    ∀ fuel k l, hasAttF attempt fuel l = false →
      scanRepF attempt isBlock k fuel l = (l, []) := by
  intro fuel
  induction fuel with
  | zero => intro k l _; rfl
  | succ f ih =>
    intro k l h
    match l with
    | [] => rfl
    | c :: cs =>
      simp only [hasAttF] at h
      simp only [scanRepF]
      cases hatt : attempt (c :: cs) with
      | some p => rw [hatt] at h; simp at h
      | none =>
        rw [hatt] at h
        simp only
        rw [ih k cs h]

theorem scanRep_no_match {attempt isBlock k l} (h : hasAtt attempt l = false) :
    scanRep attempt isBlock k l = (l, []) :=
  scanRepF_no_match l.length k l h

/-! ## The extraction

`useMemo`: four sequential global-replace passes over the document text,
all pushing to the single `latexBlocks` array (so the marker counter is
shared), block patterns first. -/

/-- First pass: `\[ ... \]`, display math. -/
def pass1 (raw : List Char) : List Char × List Span :=
  scanRep attemptBlockBracket true 0 raw

/-- Second pass: `$$ ... $$`, display math, on the output of the first. -/
def pass2 (raw : List Char) : List Char × List Span :=
  scanRep attemptDollarDollar true (pass1 raw).2.length (pass1 raw).1

/-- Third pass: `\( ... \)`, inline math. -/
def pass3 (raw : List Char) : List Char × List Span :=
  scanRep attemptParen false ((pass1 raw).2.length + (pass2 raw).2.length) (pass2 raw).1

/-- Fourth pass: `$ ... $`, inline math. -/
def pass4 (raw : List Char) : List Char × List Span :=
  scanRep attemptSingleDollar false
    ((pass1 raw).2.length + (pass2 raw).2.length + (pass3 raw).2.length) (pass3 raw).1

/-- The extraction: substituted text and the `latexBlocks` store. -/
def extract (raw : List Char) : List Char × List Span :=
  ((pass4 raw).1, (pass1 raw).2 ++ (pass2 raw).2 ++ (pass3 raw).2 ++ (pass4 raw).2)

/-! ## Marker-pattern matching in `renderer.text`

`/LATEXBLOCK(\d+)END/g` and `/LATEXINLINE(\d+)END/g`: a literal prefix, a
maximal nonempty digit run (`END` starts with a non-digit, so greedy `\d+`
never backtracks usefully) and the literal `END`. -/

/-- Split off the maximal digit prefix. -/
def digitSpan : List Char → List Char × List Char
  | [] => ([], [])
  | c :: cs =>
    if c.isDigit then
      let p := digitSpan cs
      (c :: p.1, p.2)
    else ([], c :: cs)

theorem digitSpan_eq : ∀ l, l = (digitSpan l).1 ++ (digitSpan l).2 ∧
    ∀ c ∈ (digitSpan l).1, c.isDigit = true := by
  intro l
  induction l with
  | nil => simp [digitSpan]
  | cons c cs ih =>
    by_cases h : c.isDigit
    · simp only [digitSpan, h, if_pos]
      constructor
      · simpa using ih.1
      · intro d hd
        simp at hd
        rcases hd with hd | hd
        · subst hd; exact h
        · exact ih.2 d hd
    · simp [digitSpan, h]

theorem digitSpan_append {ds : List Char} (hds : ∀ c ∈ ds, c.isDigit = true) :
    ∀ {r : List Char}, (∀ c, r.head? = some c → c.isDigit = false) →
      digitSpan (ds ++ r) = (ds, r) := by
  induction ds with
  | nil =>
    intro r hr
    match r with
    | [] => rfl
    | c :: cs =>
      have := hr c rfl
      simp [digitSpan, this]
  | cons d ds ih =>
    intro r hr
    have hd : d.isDigit = true := hds d (by simp)
    have hds' : ∀ c ∈ ds, c.isDigit = true := fun c hc => hds c (by simp [hc])
    simp only [List.cons_append, digitSpan, hd, if_pos, List.append_eq]
    rw [ih hds' hr]

/-- Head match for the marker pattern with the given prefix: returns the
full token and the rest of the input. -/
def attemptMarker (pre l : List Char) : Option (List Char × List Char) :=
  match dropLit pre l with
  | none => none
  | some r =>
    let p := digitSpan r
    if p.1 = [] then none
    else
      match dropLit endTok p.2 with
      | none => none
      | some r3 => some (pre ++ p.1 ++ endTok, r3)

theorem attemptMarker_eq {pre l tok rest : List Char}
    (h : attemptMarker pre l = some (tok, rest)) :
    l = tok ++ rest ∧ TokShape pre tok := by
  unfold attemptMarker at h
  revert h
  split
  · intro h; exact absurd h (by simp)
  · next r hdrop =>
    simp only
    split
    · intro h; exact absurd h (by simp)
    · next hne =>
      split
      · intro h; exact absurd h (by simp)
      · next r3 hend =>
        intro h
        cases h
        have h1 := dropLit_eq hdrop
        have h2 := (digitSpan_eq r).1
        have h3 := dropLit_eq hend
        constructor
        · conv_lhs => rw [h1, h2, h3]
          simp
        · exact ⟨(digitSpan r).1, hne, (digitSpan_eq r).2, rfl⟩

theorem attemptMarker_markerId (b : Bool) (n : Nat) (rest : List Char) :
    attemptMarker (if b then bPre else iPre) (markerId b n ++ rest) =
      some (markerId b n, rest) := by
  unfold attemptMarker markerId
  rw [List.append_assoc, List.append_assoc, dropLit_self]
  simp only
  have hd : digitSpan (natToDec n ++ (endTok ++ rest)) = (natToDec n, endTok ++ rest) := by
    apply digitSpan_append (fun c hc => natToDec_digits c hc)
    intro c hc
    simp [endTok] at hc
    subst hc
    decide
  rw [hd]
  simp [natToDec_ne_nil n, dropLit_self, List.append_assoc]

/-- Whether the whole text is exactly one marker token
(`text.match(/^LATEXBLOCK(\d+)END$/)` resp. the inline version). -/
def isSingleTok (pre text : List Char) : Bool :=
  match attemptMarker pre text with
  | some p => p.2.isEmpty
  | none => false

theorem isSingleTok_iff {pre text : List Char} :
    isSingleTok pre text = true ↔ attemptMarker pre text = some (text, []) := by
  unfold isSingleTok
  constructor
  · intro h
    revert h
    split
    · next p hp =>
      intro h
      have h2 : p.2 = [] := by
        cases hp2 : p.2 with
        | nil => rfl
        | cons a as => rw [hp2] at h; simp [List.isEmpty] at h
      obtain ⟨tok, rest⟩ := p
      simp at h2
      subst h2
      have := (attemptMarker_eq hp).1
      simp at this
      rw [← this] at hp
      exact hp
    · intro h; simp at h
  · intro h
    rw [h]
    simp [List.isEmpty]

theorem isSingleTok_markerId (b : Bool) (n : Nat) :
    isSingleTok (if b then bPre else iPre) (markerId b n) = true := by
  rw [isSingleTok_iff]
  have := attemptMarker_markerId b n []
  simpa using this

/-- Scan for all (non-overlapping, leftmost) marker matches with their start
offsets, as produced by repeated `regex.exec` on a `/g` pattern. -/
def findMsF (pre : List Char) : Nat → Nat → List Char → List (Nat × List Char)
  | 0, _, _ => []
  | fuel + 1, off, l =>
    match l with
    | [] => []
    | c :: cs =>
      match attemptMarker pre (c :: cs) with
      | some (tok, rest) => (off, tok) :: findMsF pre fuel (off + tok.length) rest
      | none => findMsF pre fuel (off + 1) cs

/-- All marker matches of the given prefix pattern in the text. -/
def findMs (pre text : List Char) : List (Nat × List Char) :=
  findMsF pre text.length 0 text

/-- `tok` occurs verbatim at offset `i` of `text`. -/
def Occurs (text : List Char) (i : Nat) (tok : List Char) : Prop :=
  (text.drop i).take tok.length = tok

/-- Matches are consecutive and non-overlapping from a lower offset bound. -/
def ChainedP (lo : Nat) : List (Nat × List Char) → Prop
  | [] => True
  | m :: ms => lo ≤ m.1 ∧ ChainedP (m.1 + m.2.length) ms

theorem chainedP_mono {lo lo' : Nat} (h : lo' ≤ lo) :
    ∀ {ms}, ChainedP lo ms → ChainedP lo' ms := by
  intro ms
  match ms with
  | [] => intro _; trivial
  | m :: ms => intro hc; exact ⟨Nat.le_trans h hc.1, hc.2⟩

theorem occurs_append_left {tok rest : List Char} :
    ∀ text i, text.drop i = tok ++ rest → Occurs text i tok := by
  intro text i h
  unfold Occurs
  rw [h, List.take_left]

theorem findMsF_sound (pre text : List Char) :
    ∀ fuel off, ChainedP off (findMsF pre fuel off (text.drop off)) ∧
      ∀ m ∈ findMsF pre fuel off (text.drop off), Occurs text m.1 m.2 ∧ TokShape pre m.2 := by
  intro fuel
  induction fuel with
  | zero => intro off; exact ⟨trivial, by intro m hm; simp [findMsF] at hm⟩
  | succ f ih =>
    intro off
    cases hdrop : text.drop off with
    | nil => exact ⟨trivial, by intro m hm; simp [findMsF] at hm⟩
    | cons c cs =>
      simp only [findMsF]
      cases hatt : attemptMarker pre (c :: cs) with
      | none =>
        have hcs : cs = text.drop (off + 1) := by
          have : (text.drop off).drop 1 = text.drop (off + 1) := by
            rw [List.drop_drop]
          rw [hdrop] at this
          simpa using this
        constructor
        · exact chainedP_mono (Nat.le_succ off) (by rw [hcs]; exact (ih (off + 1)).1)
        · intro m hm
          rw [hcs] at hm
          exact (ih (off + 1)).2 m hm
      | some p =>
        obtain ⟨tok, rest⟩ := p
        obtain ⟨heq, hshape⟩ := attemptMarker_eq hatt
        have hrest : rest = text.drop (off + tok.length) := by
          have h1 : (text.drop off).drop tok.length = text.drop (off + tok.length) := by
            rw [List.drop_drop]
          rw [hdrop, heq, List.drop_left] at h1
          exact h1
        have hocc : Occurs text off tok :=
          occurs_append_left text off (by rw [hdrop, heq])
        constructor
        · refine ⟨Nat.le_refl _, ?_⟩
          rw [hrest]
          exact (ih (off + tok.length)).1
        · intro m hm
          rcases List.mem_cons.mp hm with hm | hm
          · subst hm; exact ⟨hocc, hshape⟩
          · rw [hrest] at hm
            exact (ih (off + tok.length)).2 m hm

theorem findMs_sound (pre text : List Char) :
    ChainedP 0 (findMs pre text) ∧
      ∀ m ∈ findMs pre text, Occurs text m.1 m.2 ∧ TokShape pre m.2 := by
  have := findMsF_sound pre text text.length 0
  simpa [findMs] using this

/-! ## Block and inline marker matches never overlap

Character analysis of the two token shapes: a block token contains no `I`,
`L` occurs in it only at offsets 0 and 6; an inline token has `L` only at
offsets 0 and 7 and `I` at offsets 5 and 8.  Hence occurrences of the two
shapes in the same text are disjoint. -/

theorem occurs_get {text : List Char} {i : Nat} {tok : List Char}
    (h : Occurs text i tok) {o : Nat} (ho : o < tok.length) :
    text.get? (i + o) = tok.get? o := by
  unfold Occurs at h
  have h1 : tok.get? o = ((text.drop i).take tok.length).get? o := by rw [h]
  rw [List.get?_take ho] at h1
  rw [List.get?_drop] at h1
  exact h1.symm

theorem occurs_bound {text : List Char} {i : Nat} {tok : List Char}
    (h : Occurs text i tok) (hne : 1 ≤ tok.length) : i + tok.length ≤ text.length := by
  unfold Occurs at h
  have h1 : ((text.drop i).take tok.length).length = tok.length := by rw [h]
  rw [List.length_take, List.length_drop] at h1
  omega

theorem tokShape_length {pre tok : List Char} (h : TokShape pre tok) :
    pre.length + 4 ≤ tok.length := by
  obtain ⟨ds, hne, _, heq⟩ := h
  have : 1 ≤ ds.length := by
    cases ds with
    | nil => exact absurd rfl hne
    | cons a as => simp
  rw [heq]
  simp [endTok]
  omega

theorem tokShape_get_pre {pre tok : List Char} (h : TokShape pre tok) {o : Nat}
    (ho : o < pre.length) : tok.get? o = pre.get? o := by
  obtain ⟨ds, _, _, heq⟩ := h
  rw [heq, List.append_assoc, List.get?_append ho]

theorem tokShape_get_cases {pre tok : List Char} (h : TokShape pre tok) {o : Nat} {c : Char}
    (hget : tok.get? o = some c) :
    (o < pre.length ∧ pre.get? o = some c) ∨ c.isDigit = true ∨ c ∈ endTok := by
  obtain ⟨ds, _, hdig, heq⟩ := h
  subst heq
  by_cases ho : o < pre.length
  · left
    refine ⟨ho, ?_⟩
    rw [List.append_assoc, List.get?_append ho] at hget
    exact hget
  · right
    push_neg at ho
    rw [List.append_assoc, List.get?_append_right ho] at hget
    by_cases ho2 : o - pre.length < ds.length
    · left
      rw [List.get?_append ho2] at hget
      exact hdig c (List.get?_mem hget)
    · right
      push_neg at ho2
      rw [List.get?_append_right ho2] at hget
      exact List.get?_mem hget

theorem block_no_I {tok : List Char} (h : TokShape bPre tok) (o : Nat) :
    tok.get? o ≠ some 'I' := by
  intro hget
  rcases tokShape_get_cases h hget with ⟨ho, hpre⟩ | hdig | hend
  · revert hpre
    have hb : ∀ o, o < 10 → bPre.get? o ≠ some 'I' := by decide
    exact hb o (by simpa [bPre] using ho)
  · simp at hdig
  · simp [endTok] at hend

theorem block_L_pos {tok : List Char} (h : TokShape bPre tok) {o : Nat}
    (hget : tok.get? o = some 'L') : o = 0 ∨ o = 6 := by
  rcases tokShape_get_cases h hget with ⟨ho, hpre⟩ | hdig | hend
  · revert hpre
    have hb : ∀ o, o < 10 → bPre.get? o = some 'L' → o = 0 ∨ o = 6 := by decide
    exact hb o (by simpa [bPre] using ho)
  · simp at hdig
  · simp [endTok] at hend

theorem inline_L_pos {tok : List Char} (h : TokShape iPre tok) {o : Nat}
    (hget : tok.get? o = some 'L') : o = 0 ∨ o = 7 := by
  rcases tokShape_get_cases h hget with ⟨ho, hpre⟩ | hdig | hend
  · revert hpre
    have hb : ∀ o, o < 11 → iPre.get? o = some 'L' → o = 0 ∨ o = 7 := by decide
    exact hb o (by simpa [iPre] using ho)
  · simp at hdig
  · simp [endTok] at hend

theorem block_get0 {tok : List Char} (h : TokShape bPre tok) : tok.get? 0 = some 'L' := by
  rw [tokShape_get_pre h (by simp [bPre])]
  decide

theorem inline_get0 {tok : List Char} (h : TokShape iPre tok) : tok.get? 0 = some 'L' := by
  rw [tokShape_get_pre h (by simp [iPre])]
  decide

theorem block_get1 {tok : List Char} (h : TokShape bPre tok) : tok.get? 1 = some 'A' := by
  rw [tokShape_get_pre h (by simp [bPre])]
  decide

theorem block_get5 {tok : List Char} (h : TokShape bPre tok) : tok.get? 5 = some 'B' := by
  rw [tokShape_get_pre h (by simp [bPre])]
  decide

theorem inline_get5 {tok : List Char} (h : TokShape iPre tok) : tok.get? 5 = some 'I' := by
  rw [tokShape_get_pre h (by simp [iPre])]
  decide

theorem inline_get8 {tok : List Char} (h : TokShape iPre tok) : tok.get? 8 = some 'I' := by
  rw [tokShape_get_pre h (by simp [iPre])]
  decide

/-- A block-shaped occurrence and an inline-shaped occurrence in the same
text never overlap. -/
theorem crossDisjoint {text : List Char} {i j : Nat} {tb ti : List Char}
    (hb : TokShape bPre tb) (hoB : Occurs text i tb)
    (hi : TokShape iPre ti) (hoI : Occurs text j ti) :
    i + tb.length ≤ j ∨ j + ti.length ≤ i := by
  by_contra hcon
  push_neg at hcon
  obtain ⟨h1, h2⟩ := hcon
  have hLb : 14 ≤ tb.length := by
    have := tokShape_length hb
    simp [bPre] at this
    omega
  have hLi : 15 ≤ ti.length := by
    have := tokShape_length hi
    simp [iPre] at this
    omega
  by_cases hij : i ≤ j
  · -- the inline token starts inside the block occurrence
    by_cases hnear : j + 5 < i + tb.length
    · -- offset 5 of the inline token lies inside the block token: it is `I`
      have hgi : text.get? (j + 5) = some 'I' := by
        rw [occurs_get hoI (by omega)]
        exact inline_get5 hi
      have hgb : text.get? (i + (j + 5 - i)) = tb.get? (j + 5 - i) :=
        occurs_get hoB (by omega)
      rw [show i + (j + 5 - i) = j + 5 by omega] at hgb
      exact block_no_I hb (j + 5 - i) (by rw [← hgb, hgi])
    · -- the first char of the inline token is an `L` of the block token,
      -- so the inline token starts at block offset 0 or 6; both put
      -- offset 5 of the inline token inside the block token
      have hgC : text.get? j = some 'L' := by
        have := occurs_get hoI (o := 0) (by omega)
        simpa using (this.trans (inline_get0 hi))
      have hgb : text.get? (i + (j - i)) = tb.get? (j - i) :=
        occurs_get hoB (by omega)
      rw [show i + (j - i) = j by omega] at hgb
      have := block_L_pos hb (by rw [← hgb, hgC])
      omega
  · -- the block token starts strictly inside the inline occurrence
    push_neg at hij
    have hgC : text.get? i = some 'L' := by
      have := occurs_get hoB (o := 0) (by omega)
      simpa using (this.trans (block_get0 hb))
    have hgi : text.get? (j + (i - j)) = ti.get? (i - j) :=
      occurs_get hoI (by omega)
    rw [show j + (i - j) = i by omega] at hgi
    have hpos := inline_L_pos hi (by rw [← hgi, hgC])
    have hij7 : i - j = 7 := by omega
    -- then block offset 1 coincides with inline offset 8: `A` vs `I`
    have hA : text.get? (i + 1) = some 'A' := by
      rw [occurs_get hoB (o := 1) (by omega)]
      exact block_get1 hb
    have hI : text.get? (j + 8) = some 'I' := by
      rw [occurs_get hoI (o := 8) (by omega)]
      exact inline_get8 hi
    rw [show j + 8 = i + 1 by omega] at hI
    rw [hA] at hI
    simp at hI

/-! ## The general path of `renderer.text`

Collect all matches of both marker patterns (`allMatches`), sort them by
start offset (`allMatches.sort((a, b) => a.match.index - b.match.index)`),
then walk them left to right maintaining `lastEnd`, emitting a literal unit
for each gap, a math unit (or a literal fallback) for each match, and a
trailing literal unit. -/

/-- One collected match: start offset, full matched token, and whether the
block pattern produced it. -/
structure MMatch where
  idx : Nat
  tok : List Char
  isB : Bool
deriving DecidableEq

/-- Comparison used to sort the collected matches. -/
def mleR (a b : MMatch) : Prop := a.idx ≤ b.idx

instance : DecidableRel mleR := fun a b => Nat.decLe a.idx b.idx

instance : IsTotal MMatch mleR := ⟨fun a b => Nat.le_total a.idx b.idx⟩

instance : IsTrans MMatch mleR := ⟨fun _ _ _ => Nat.le_trans⟩

/-- The merged, position-sorted match list of a leaf text. -/
def mergedMs (text : List Char) : List MMatch :=
  List.insertionSort mleR
    ((findMs bPre text).map (fun p => ⟨p.1, p.2, true⟩) ++
      (findMs iPre text).map (fun p => ⟨p.1, p.2, false⟩))

/-- A render unit emitted by `renderer.text`: either literal text (pushed
through `WordByWordFadeIn`) or a math fragment (a `Latex` element whose
child is the given source string, rendered in the given display mode). -/
inductive RUnit
  | lit (t : List Char)
  | math (tok : List Char) (content : List Char) (display : Bool)
deriving DecidableEq

/-- `latexBlocks.find(block => block.id === tok)`. -/
def lookupSpan (spans : List Span) (tok : List Char) : Option Span :=
  spans.find? (fun b => b.id == tok)

/-- The walk over the sorted matches (`allMatches.forEach` plus the final
remaining-text push). -/
def emitUnits (spans : List Span) (text : List Char) : Nat → List MMatch → List RUnit
  | lastEnd, [] =>
    if lastEnd < text.length then [RUnit.lit (text.drop lastEnd)] else []
  | lastEnd, m :: ms =>
    (if lastEnd < m.idx then [RUnit.lit ((text.drop lastEnd).take (m.idx - lastEnd))] else []) ++
      (match lookupSpan spans m.tok with
        | some b => RUnit.math m.tok b.content m.isB
        | none => RUnit.lit m.tok) :: emitUnits spans text (m.idx + m.tok.length) ms

/-- The general mixed-content path of `renderer.text`. -/
def genUnits (spans : List Span) (text : List Char) : List RUnit :=
  emitUnits spans text 0 (mergedMs text)

/-- The unit-level view of the `renderer.text` callback, listing the
components the callback emits: short-circuit when neither marker pattern
occurs in the text; fast path when the whole text is a single marker whose
span is found (block checked first, with block display mode, then inline);
otherwise the general path.  When a single marker's span is not found the
source falls through to the general path, whose fallback emits the marker
text as a literal.  This view deliberately ignores the element-level
difference that the general path wraps its components in a `<span>` while
the other paths return a bare element; `renderText` below keeps that
wrapper. -/
def resolveText (spans : List Span) (text : List Char) : List RUnit :=
  if findMs bPre text = [] ∧ findMs iPre text = [] then [RUnit.lit text]
  else if isSingleTok bPre text = true then
    match lookupSpan spans text with
    | some b => [RUnit.math text b.content true]
    | none => genUnits spans text
  else if isSingleTok iPre text = true then
    match lookupSpan spans text with
    | some b => [RUnit.math text b.content false]
    | none => genUnits spans text
  else genUnits spans text

/-- The source text consumed by a unit: a literal consumed its text, a math
unit consumed its marker token. -/
def unitSrc : RUnit → List Char
  | RUnit.lit t => t
  | RUnit.math tok _ _ => tok

/-- Concatenated consumed source of a unit sequence. -/
def unitsSrc (us : List RUnit) : List Char := (us.map unitSrc).join

/-! ## The sorted merged match list is an ordered disjoint decomposition -/

/-- Matches are consecutive and non-overlapping from a lower offset bound. -/
def ChainedM (lo : Nat) : List MMatch → Prop
  | [] => True
  | m :: ms => lo ≤ m.idx ∧ ChainedM (m.idx + m.tok.length) ms

/-- `a`'s interval lies fully to the left of `b`'s. -/
def MLeft (a b : MMatch) : Prop := a.idx + a.tok.length ≤ b.idx

/-- `a`'s and `b`'s intervals are disjoint. -/
def MDisj (a b : MMatch) : Prop := MLeft a b ∨ MLeft b a

theorem mdisj_symm : ∀ {a b : MMatch}, MDisj a b → MDisj b a := fun h => h.symm

theorem chainedM_lower {lo : Nat} : ∀ {ms}, ChainedM lo ms → ∀ m ∈ ms, lo ≤ m.idx := by
  intro ms
  induction ms generalizing lo with
  | nil => intro _ m hm; simp at hm
  | cons a ms ih =>
    intro hc m hm
    obtain ⟨h1, h2⟩ := hc
    rcases List.mem_cons.mp hm with hm | hm
    · subst hm; exact h1
    · have := ih h2 m hm
      omega

theorem chainedM_pairwise {lo : Nat} : ∀ {ms}, ChainedM lo ms → List.Pairwise MLeft ms := by
  intro ms
  induction ms generalizing lo with
  | nil => intro _; exact List.Pairwise.nil
  | cons a ms ih =>
    intro hc
    refine List.Pairwise.cons ?_ (ih hc.2)
    intro b hb
    exact chainedM_lower hc.2 b hb

theorem chainedM_of_pairwise :
    ∀ {ms : List MMatch}, List.Pairwise (fun a b => mleR a b ∧ MDisj a b) ms →
      (∀ m ∈ ms, 1 ≤ m.tok.length) → ∀ lo, (∀ m ∈ ms, lo ≤ m.idx) → ChainedM lo ms := by
  intro ms
  induction ms with
  | nil => intro _ _ lo _; trivial
  | cons a ms ih =>
    intro hp hlen lo hlo
    have hpa := List.pairwise_cons.mp hp
    refine ⟨hlo a (by simp), ?_⟩
    apply ih hpa.2 (fun m hm => hlen m (by simp [hm]))
    intro m hm
    obtain ⟨hle, hdisj⟩ := hpa.1 m hm
    rcases hdisj with hdisj | hdisj
    · exact hdisj
    · unfold MLeft at hdisj
      unfold mleR at hle
      have := hlen m (by simp [hm])
      omega

theorem chainedP_lower {lo : Nat} : ∀ {ps}, ChainedP lo ps → ∀ p ∈ ps, lo ≤ p.1 := by
  intro ps
  induction ps generalizing lo with
  | nil => intro _ p hp; simp at hp
  | cons a ps ih =>
    intro hc p hp
    obtain ⟨h1, h2⟩ := hc
    rcases List.mem_cons.mp hp with hp | hp
    · subst hp; exact h1
    · have := ih h2 p hp
      omega

theorem chainedP_map_pairwise {b : Bool} :
    ∀ {ps : List (Nat × List Char)} {lo : Nat}, ChainedP lo ps →
      List.Pairwise MLeft (ps.map (fun p => MMatch.mk p.1 p.2 b)) := by
  intro ps
  induction ps with
  | nil => intro lo _; exact List.Pairwise.nil
  | cons p ps ih =>
    intro lo hc
    obtain ⟨h1, h2⟩ := hc
    refine List.Pairwise.cons ?_ (ih h2)
    intro m hm
    simp at hm
    obtain ⟨i2, t2, hm2, hmeq⟩ := hm
    have hlow : p.1 + p.2.length ≤ i2 := chainedP_lower h2 (i2, t2) hm2
    unfold MLeft
    rw [← hmeq]
    exact hlow

/-- A collected match is a real occurrence of its shape. -/
def MGood (text : List Char) (m : MMatch) : Prop :=
  Occurs text m.idx m.tok ∧ TokShape (if m.isB then bPre else iPre) m.tok

/-- The unsorted concatenation of the two match lists. -/
def allMs (text : List Char) : List MMatch :=
  (findMs bPre text).map (fun p => ⟨p.1, p.2, true⟩) ++
    (findMs iPre text).map (fun p => ⟨p.1, p.2, false⟩)

theorem allMs_good (text : List Char) : ∀ m ∈ allMs text, MGood text m := by
  intro m hm
  unfold allMs at hm
  rcases List.mem_append.mp hm with hm | hm
  · simp at hm
    obtain ⟨i, t, hmem, heq⟩ := hm
    obtain ⟨hocc, hshape⟩ := (findMs_sound bPre text).2 (i, t) hmem
    subst heq
    exact ⟨hocc, by simpa using hshape⟩
  · simp at hm
    obtain ⟨i, t, hmem, heq⟩ := hm
    obtain ⟨hocc, hshape⟩ := (findMs_sound iPre text).2 (i, t) hmem
    subst heq
    exact ⟨hocc, by simpa using hshape⟩

theorem allMs_pairwise_disj (text : List Char) : List.Pairwise MDisj (allMs text) := by
  unfold allMs
  rw [List.pairwise_append]
  refine ⟨?_, ?_, ?_⟩
  · exact (chainedP_map_pairwise (findMs_sound bPre text).1).imp (fun h => Or.inl h)
  · exact (chainedP_map_pairwise (findMs_sound iPre text).1).imp (fun h => Or.inl h)
  · intro a ha b hb
    simp at ha hb
    obtain ⟨i, t, hmem, heq⟩ := ha
    obtain ⟨j, s, hmem', heq'⟩ := hb
    obtain ⟨hoB, hsB⟩ := (findMs_sound bPre text).2 (i, t) hmem
    obtain ⟨hoI, hsI⟩ := (findMs_sound iPre text).2 (j, s) hmem'
    have := crossDisjoint hsB hoB hsI hoI
    unfold MDisj MLeft
    rw [← heq, ← heq']
    simpa using this

theorem mergedMs_perm (text : List Char) : (mergedMs text).Perm (allMs text) :=
  List.perm_insertionSort mleR (allMs text)

theorem mergedMs_good (text : List Char) : ∀ m ∈ mergedMs text, MGood text m :=
  fun m hm => allMs_good text m ((mergedMs_perm text).mem_iff.mp hm)

theorem mergedMs_chained (text : List Char) : ChainedM 0 (mergedMs text) := by
  have hsorted : List.Pairwise mleR (mergedMs text) :=
    List.sorted_insertionSort mleR (allMs text)
  have hdisj : List.Pairwise MDisj (mergedMs text) :=
    ((mergedMs_perm text).pairwise_iff (fun h => mdisj_symm h)).mpr (allMs_pairwise_disj text)
  apply chainedM_of_pairwise (hsorted.and hdisj)
  · intro m hm
    have := (mergedMs_good text m hm).2
    have hlen := tokShape_length this
    split at hlen <;> simp [bPre, iPre] at hlen <;> omega
  · intro m _
    exact Nat.zero_le _

/-! ## The emit walk is an order-preserving partition of the leaf text -/

theorem unitsSrc_nil : unitsSrc [] = [] := rfl

theorem unitsSrc_cons (u : RUnit) (us : List RUnit) :
    unitsSrc (u :: us) = unitSrc u ++ unitsSrc us := by
  simp [unitsSrc]

theorem unitsSrc_append (us vs : List RUnit) :
    unitsSrc (us ++ vs) = unitsSrc us ++ unitsSrc vs := by
  simp [unitsSrc]

theorem emitUnits_src (spans : List Span) (text : List Char) :
    ∀ ms lastEnd, ChainedM lastEnd ms → (∀ m ∈ ms, Occurs text m.idx m.tok) →
      (∀ m ∈ ms, 1 ≤ m.tok.length) →
      unitsSrc (emitUnits spans text lastEnd ms) = text.drop lastEnd := by
  intro ms
  induction ms with
  | nil =>
    intro lastEnd _ _ _
    by_cases h : lastEnd < text.length
    · simp [emitUnits, h, unitsSrc, unitSrc]
    · have : text.drop lastEnd = [] := List.drop_eq_nil_of_le (by omega)
      simp [emitUnits, h, unitsSrc, this]
  | cons m ms ih =>
    intro lastEnd hchain hocc hlen
    obtain ⟨hle, hchain'⟩ := hchain
    have hoccm : Occurs text m.idx m.tok := hocc m (by simp)
    have hlenm : 1 ≤ m.tok.length := hlen m (by simp)
    have hkey : text.drop lastEnd =
        (text.drop lastEnd).take (m.idx - lastEnd) ++ m.tok ++ text.drop (m.idx + m.tok.length) := by
      have h1 : text.drop lastEnd =
          (text.drop lastEnd).take (m.idx - lastEnd) ++ (text.drop lastEnd).drop (m.idx - lastEnd) :=
        (List.take_append_drop _ _).symm
      have h2 : (text.drop lastEnd).drop (m.idx - lastEnd) = text.drop m.idx := by
        rw [List.drop_drop]
        congr 1
        omega
      have h3 : text.drop m.idx = m.tok ++ text.drop (m.idx + m.tok.length) := by
        have h4 : text.drop m.idx =
            (text.drop m.idx).take m.tok.length ++ (text.drop m.idx).drop m.tok.length :=
          (List.take_append_drop _ _).symm
        rw [List.drop_drop] at h4
        unfold Occurs at hoccm
        rw [hoccm] at h4
        exact h4
      conv_lhs => rw [h1, h2, h3]
      rw [List.append_assoc]
    have hrec := ih (m.idx + m.tok.length) hchain'
      (fun x hx => hocc x (by simp [hx])) (fun x hx => hlen x (by simp [hx]))
    have hu : unitSrc (match lookupSpan spans m.tok with
        | some b => RUnit.math m.tok b.content m.isB
        | none => RUnit.lit m.tok) = m.tok := by
      cases lookupSpan spans m.tok <;> rfl
    simp only [emitUnits]
    rw [unitsSrc_append, unitsSrc_cons, hu, hrec]
    by_cases hgap : lastEnd < m.idx
    · simp only [hgap, if_pos]
      rw [unitsSrc_cons, unitsSrc_nil, unitSrc]
      conv_rhs => rw [hkey]
      simp [List.append_assoc]
    · have hidx : m.idx = lastEnd := by omega
      simp only [hgap, if_neg, not_false_iff, unitsSrc_nil, List.nil_append]
      conv_rhs => rw [hkey]
      rw [hidx]
      simp

theorem genUnits_src (spans : List Span) (text : List Char) :
    unitsSrc (genUnits spans text) = text := by
  unfold genUnits
  have h := emitUnits_src spans text (mergedMs text) 0 (mergedMs_chained text)
    (fun m hm => (mergedMs_good text m hm).1)
    (fun m hm => by
      have := tokShape_length (mergedMs_good text m hm).2
      omega)
  simpa using h

/-- The order-preserving partition property of `renderer.text`: the emitted
units consume exactly the leaf text, in document order (a literal consumes
its text, a math unit consumes its marker token). -/
theorem resolveText_src (spans : List Span) (text : List Char) :
    unitsSrc (resolveText spans text) = text := by
  unfold resolveText
  by_cases h0 : findMs bPre text = [] ∧ findMs iPre text = []
  · simp [h0, unitsSrc, unitSrc]
  · simp only [h0, if_neg, not_false_iff]
    by_cases hb : isSingleTok bPre text = true
    · simp only [hb, if_pos]
      cases hfind : lookupSpan spans text with
      | some b => simp [unitsSrc, unitSrc]
      | none => exact genUnits_src spans text
    · simp only [hb, if_neg, not_false_iff]
      by_cases hi : isSingleTok iPre text = true
      · simp only [hi, if_pos]
        cases hfind : lookupSpan spans text with
        | some b => simp [unitsSrc, unitSrc]
        | none => exact genUnits_src spans text
      · simp only [hi, if_neg, not_false_iff]
        exact genUnits_src spans text

/-! ## The single-marker fast path -/

theorem findMsF_nil (pre : List Char) : ∀ fuel off, findMsF pre fuel off [] = [] := by
  intro fuel off
  cases fuel <;> rfl

theorem isSingleTok_shape {pre text : List Char} (h : isSingleTok pre text = true) :
    TokShape pre text := by
  have h1 := isSingleTok_iff.mp h
  have h2 := attemptMarker_eq h1
  exact h2.2

theorem tokShape_not_both {text : List Char} (hb : TokShape bPre text)
    (hi : TokShape iPre text) : False := by
  have h1 := block_get5 hb
  have h2 := inline_get5 hi
  rw [h1] at h2
  simp at h2

theorem occurs_self (text : List Char) : Occurs text 0 text := by
  simp [Occurs]

theorem findMs_single {pre text : List Char}
    (h : attemptMarker pre text = some (text, [])) : findMs pre text = [(0, text)] := by
  have hsh := (attemptMarker_eq h).2
  have hne : text ≠ [] := by
    intro hnil
    have := tokShape_length hsh
    rw [hnil] at this
    simp at this
  cases htext : text with
  | nil => exact absurd htext hne
  | cons c cs =>
    unfold findMs findMsF
    simp only [htext, List.length_cons]
    rw [← htext, h]
    simp [findMsF_nil]

theorem findMs_other_empty_block {text : List Char} (hsh : TokShape bPre text) :
    findMs iPre text = [] := by
  cases hms : findMs iPre text with
  | nil => rfl
  | cons m ms =>
    exfalso
    have hmem : m ∈ findMs iPre text := by rw [hms]; simp
    obtain ⟨hocc, hshape⟩ := (findMs_sound iPre text).2 m hmem
    have hlen : 15 ≤ m.2.length := by
      have := tokShape_length hshape
      simp [iPre] at this
      omega
    have hbound := occurs_bound hocc (by omega)
    have := crossDisjoint hsh (occurs_self text) hshape hocc
    omega

theorem findMs_other_empty_inline {text : List Char} (hsh : TokShape iPre text) :
    findMs bPre text = [] := by
  cases hms : findMs bPre text with
  | nil => rfl
  | cons m ms =>
    exfalso
    have hmem : m ∈ findMs bPre text := by rw [hms]; simp
    obtain ⟨hocc, hshape⟩ := (findMs_sound bPre text).2 m hmem
    have hlen : 14 ≤ m.2.length := by
      have := tokShape_length hshape
      simp [bPre] at this
      omega
    have hbound := occurs_bound hocc (by omega)
    have := crossDisjoint hshape hocc hsh (occurs_self text)
    omega

theorem mergedMs_single_block {text : List Char} (h : isSingleTok bPre text = true) :
    mergedMs text = [⟨0, text, true⟩] := by
  have h1 := isSingleTok_iff.mp h
  have hsh := isSingleTok_shape h
  unfold mergedMs
  rw [show (findMs bPre text) = [(0, text)] from findMs_single h1,
    findMs_other_empty_block hsh]
  simp

theorem mergedMs_single_inline {text : List Char} (h : isSingleTok iPre text = true) :
    mergedMs text = [⟨0, text, false⟩] := by
  have h1 := isSingleTok_iff.mp h
  have hsh := isSingleTok_shape h
  unfold mergedMs
  rw [show (findMs iPre text) = [(0, text)] from findMs_single h1,
    findMs_other_empty_inline hsh]
  simp

theorem genUnits_single {spans : List Span} {text : List Char} {b : Bool}
    (h : mergedMs text = [⟨0, text, b⟩]) :
    genUnits spans text =
      [match lookupSpan spans text with
        | some sp => RUnit.math text sp.content b
        | none => RUnit.lit text] := by
  unfold genUnits
  rw [h]
  cases hfind : lookupSpan spans text with
  | some sp => simp [emitUnits, hfind]
  | none => simp [emitUnits, hfind]

/-- The single-marker fast path returns exactly what the general merged-scan
path returns on the same text. -/
theorem resolveText_single_eq_gen (spans : List Span) (text : List Char)
    (h : isSingleTok bPre text = true ∨ isSingleTok iPre text = true) :
    resolveText spans text = genUnits spans text := by
  rcases h with hb | hi
  · have hsh := isSingleTok_shape hb
    have hfm : findMs bPre text = [(0, text)] := findMs_single (isSingleTok_iff.mp hb)
    have h0 : ¬(findMs bPre text = [] ∧ findMs iPre text = []) := by
      rw [hfm]
      simp
    unfold resolveText
    simp only [h0, if_neg, not_false_iff, hb, if_pos]
    cases hfind : lookupSpan spans text with
    | some b =>
      rw [genUnits_single (mergedMs_single_block hb), hfind]
    | none => rfl
  · have hsh := isSingleTok_shape hi
    have hfm : findMs iPre text = [(0, text)] := findMs_single (isSingleTok_iff.mp hi)
    have h0 : ¬(findMs bPre text = [] ∧ findMs iPre text = []) := by
      rw [hfm]
      simp
    have hb : isSingleTok bPre text = false := by
      cases hval : isSingleTok bPre text with
      | false => rfl
      | true => exact absurd (tokShape_not_both (isSingleTok_shape hval) hsh) (by simp)
    unfold resolveText
    simp only [h0, if_neg, not_false_iff, hb, Bool.false_eq_true, if_false, hi, if_pos]
    cases hfind : lookupSpan spans text with
    | some b =>
      rw [genUnits_single (mergedMs_single_inline hi), hfind]
    | none => rfl

/-! ## Fallback behaviour for markers without a span -/

theorem emitUnits_all_lit (text : List Char) :
    ∀ ms lastEnd, ∀ u ∈ emitUnits [] text lastEnd ms, ∃ t, u = RUnit.lit t := by
  intro ms
  induction ms with
  | nil =>
    intro lastEnd u hu
    by_cases h : lastEnd < text.length
    · simp [emitUnits, h] at hu
      exact ⟨_, hu⟩
    · simp [emitUnits, h] at hu
  | cons m ms ih =>
    intro lastEnd u hu
    simp only [emitUnits] at hu
    rcases List.mem_append.mp hu with hu | hu
    · by_cases h : lastEnd < m.idx
      · simp [h] at hu
        exact ⟨_, hu⟩
      · simp [h] at hu
    · rcases List.mem_cons.mp hu with hu | hu
      · subst hu
        exact ⟨m.tok, by simp [lookupSpan]⟩
      · exact ih _ u hu

theorem resolveText_empty_store_lit (text : List Char) :
    ∀ u ∈ resolveText [] text, ∃ t, u = RUnit.lit t := by
  intro u hu
  unfold resolveText at hu
  by_cases h0 : findMs bPre text = [] ∧ findMs iPre text = []
  · simp [h0] at hu
    exact ⟨text, hu⟩
  · simp only [h0, if_neg, not_false_iff] at hu
    by_cases hb : isSingleTok bPre text = true
    · simp only [hb, if_pos] at hu
      rw [show lookupSpan [] text = none from rfl] at hu
      exact emitUnits_all_lit text _ 0 u hu
    · simp only [hb, if_neg, not_false_iff] at hu
      by_cases hi : isSingleTok iPre text = true
      · simp only [hi, if_pos] at hu
        rw [show lookupSpan [] text = none from rfl] at hu
        exact emitUnits_all_lit text _ 0 u hu
      · simp only [hi, if_neg, not_false_iff] at hu
        exact emitUnits_all_lit text _ 0 u hu

theorem emitUnits_fallback_mem (spans : List Span) (text : List Char) :
    ∀ ms lastEnd m, m ∈ ms → lookupSpan spans m.tok = none →
      RUnit.lit m.tok ∈ emitUnits spans text lastEnd ms := by
  intro ms
  induction ms with
  | nil => intro lastEnd m hm _; simp at hm
  | cons a ms ih =>
    intro lastEnd m hm hnone
    simp only [emitUnits]
    rcases List.mem_cons.mp hm with hm | hm
    · subst hm
      rw [hnone]
      simp
    · refine List.mem_append.mpr (Or.inr ?_)
      exact List.mem_cons.mpr (Or.inr (ih _ m hm hnone))

/-- A marker match whose token has no entry in the span store is emitted as
a literal unit with the marker's own text. -/
theorem resolveText_fallback (spans : List Span) (text : List Char) (m : MMatch)
    (hm : m ∈ mergedMs text) (hnone : lookupSpan spans m.tok = none) :
    RUnit.lit m.tok ∈ resolveText spans text := by
  have hmAll : m ∈ allMs text := (mergedMs_perm text).mem_iff.mp hm
  have h0 : ¬(findMs bPre text = [] ∧ findMs iPre text = []) := by
    intro h0
    unfold allMs at hmAll
    rw [h0.1, h0.2] at hmAll
    simp at hmAll
  unfold resolveText
  simp only [h0, if_neg, not_false_iff]
  by_cases hb : isSingleTok bPre text = true
  · simp only [hb, if_pos]
    have hmono := mergedMs_single_block hb
    rw [hmono] at hm
    simp at hm
    subst hm
    simp only [hnone]
    exact emitUnits_fallback_mem spans text _ 0 _ (by rw [hmono]; simp) hnone
  · simp only [hb, if_neg, not_false_iff]
    by_cases hi : isSingleTok iPre text = true
    · simp only [hi, if_pos]
      have hmono := mergedMs_single_inline hi
      rw [hmono] at hm
      simp at hm
      subst hm
      simp only [hnone]
      exact emitUnits_fallback_mem spans text _ 0 _ (by rw [hmono]; simp) hnone
    · simp only [hi, if_neg, not_false_iff]
      exact emitUnits_fallback_mem spans text _ 0 _ hm hnone

/-! ## Store-level invariants of the extraction -/

theorem idsFrom_append {k : Nat} {l1 l2 : List Span}
    (h1 : IdsFrom k l1) (h2 : IdsFrom (k + l1.length) l2) : IdsFrom k (l1 ++ l2) := by
  intro i sp hsp
  by_cases hi : i < l1.length
  · rw [List.getElem?_append_left hi] at hsp
    exact h1 i sp hsp
  · push_neg at hi
    rw [List.getElem?_append_right hi] at hsp
    have := h2 (i - l1.length) sp hsp
    rw [this]
    congr 1
    omega

theorem pass1_srel (raw : List Char) :
    SRel attemptBlockBracket true 0 raw (pass1 raw).1 (pass1 raw).2 :=
  scanRep_srel attemptOk_blockBracket true 0 raw

theorem pass2_srel (raw : List Char) :
    SRel attemptDollarDollar true (pass1 raw).2.length (pass1 raw).1 (pass2 raw).1 (pass2 raw).2 :=
  scanRep_srel attemptOk_dollarDollar true _ _

theorem pass3_srel (raw : List Char) :
    SRel attemptParen false ((pass1 raw).2.length + (pass2 raw).2.length) (pass2 raw).1
      (pass3 raw).1 (pass3 raw).2 :=
  scanRep_srel attemptOk_paren false _ _

theorem pass4_srel (raw : List Char) :
    SRel attemptSingleDollar false
      ((pass1 raw).2.length + (pass2 raw).2.length + (pass3 raw).2.length) (pass3 raw).1
      (pass4 raw).1 (pass4 raw).2 :=
  scanRep_srel attemptOk_singleDollar false _ _

/-- Marker ids are `<kind><counter>` with one counter shared by all four
passes: the `i`-th span of the store has id `markerId isBlock i`. -/
theorem extract_ids (raw : List Char) : IdsFrom 0 (extract raw).2 := by
  have h1 := (pass1_srel raw).ids_from
  have h2 := (pass2_srel raw).ids_from
  have h3 := (pass3_srel raw).ids_from
  have h4 := (pass4_srel raw).ids_from
  unfold extract
  simp only
  rw [List.append_assoc, List.append_assoc]
  refine idsFrom_append h1 ?_
  rw [Nat.zero_add]
  refine idsFrom_append h2 ?_
  refine idsFrom_append h3 ?_
  exact h4

/-- All marker ids in the store are pairwise distinct. -/
theorem extract_nodup (raw : List Char) : ((extract raw).2.map Span.id).Nodup := by
  have hids := extract_ids raw
  rw [List.nodup_iff_injective_getElem]
  intro i j hij
  simp only [List.getElem_map] at hij
  have hi := hids i.1 ((extract raw).2.get ⟨i.1, by
    have := i.2; simpa using this⟩) (by
    rw [List.getElem?_eq_getElem]
    rfl)
  have hj := hids j.1 ((extract raw).2.get ⟨j.1, by
    have := j.2; simpa using this⟩) (by
    rw [List.getElem?_eq_getElem]
    rfl)
  simp only [List.get_eq_getElem] at hi hj
  rw [hi, hj] at hij
  have := (markerId_injective _ _ _ _ hij).2
  exact Fin.ext (by omega)

/-- With pairwise-distinct ids, `latexBlocks.find` on a stored span's id
returns exactly that span. -/
theorem lookupSpan_self : ∀ {sps : List Span}, (sps.map Span.id).Nodup →
    ∀ sp ∈ sps, lookupSpan sps sp.id = some sp := by
  intro sps
  induction sps with
  | nil => intro _ sp hsp; simp at hsp
  | cons a rest ih =>
    intro hnodup sp hsp
    rw [List.map_cons] at hnodup
    have hcons := List.nodup_cons.mp hnodup
    rcases List.mem_cons.mp hsp with hsp | hsp
    · subst hsp
      simp [lookupSpan, List.find?]
    · have hne : a.id ≠ sp.id := by
        intro heq
        have h1 : sp.id ∈ rest.map Span.id := List.mem_map.mpr ⟨sp, hsp, rfl⟩
        rw [← heq] at h1
        exact hcons.1 h1
      unfold lookupSpan
      rw [List.find?]
      have : (a.id == sp.id) = false := by
        simp [hne]
      rw [this]
      exact ih hcons.2 sp hsp

/-! ## No-match identity of the extraction -/

theorem extract_no_match {raw : List Char}
    (h1 : hasAtt attemptBlockBracket raw = false)
    (h2 : hasAtt attemptDollarDollar raw = false)
    (h3 : hasAtt attemptParen raw = false)
    (h4 : hasAtt attemptSingleDollar raw = false) :
    extract raw = (raw, []) := by
  have hp1 : pass1 raw = (raw, []) := scanRep_no_match h1
  have hp2 : pass2 raw = (raw, []) := by
    unfold pass2
    rw [hp1]
    exact scanRep_no_match h2
  have hp3 : pass3 raw = (raw, []) := by
    unfold pass3
    rw [hp1, hp2]
    exact scanRep_no_match h3
  have hp4 : pass4 raw = (raw, []) := by
    unfold pass4
    rw [hp1, hp2, hp3]
    exact scanRep_no_match h4
  unfold extract
  rw [hp1, hp2, hp3, hp4]
  simp

/-- A leaf in which neither marker pattern occurs resolves to the single
literal unit that the structural parser alone would render. -/
theorem resolveText_no_marker (spans : List Span) (text : List Char)
    (hb : findMs bPre text = []) (hi : findMs iPre text = []) :
    resolveText spans text = [RUnit.lit text] := by
  unfold resolveText
  simp [hb, hi]

/-! ## The composite-node renderers and the wrapper policy

`blockquote`, `listItem`, `strong`, `link`, `heading` and `tableCell` each
scan their already-rendered children for a `Latex` element
(`componentName === "Latex"`); if one is present the children are rendered
as-is, otherwise they are wrapped in `WordByWordFadeIn`.  `paragraph` has no
such check: apart from its single-block-marker special case it renders its
children as-is inside a `<p>`. -/

/-- An already-rendered child as the composite renderers see it. -/
inductive RChild
  | latexC (content : List Char) (display : Bool)
  | textC (s : List Char)
  | elemC
deriving DecidableEq

/-- `React.Children.toArray(children).some(child => componentName === "Latex")`. -/
def hasLatexChild (cs : List RChild) : Bool :=
  cs.any fun c =>
    match c with
    | RChild.latexC _ _ => true
    | _ => false

/-- Children of a composite node, either passed through or wrapped in the
word-by-word reveal. -/
inductive Wrapped
  | asIs (cs : List RChild)
  | reveal (cs : List RChild)
deriving DecidableEq

/-- `renderer.blockquote`. -/
def renderBlockquote (cs : List RChild) : Wrapped :=
  if hasLatexChild cs then Wrapped.asIs cs else Wrapped.reveal cs

/-- `renderer.listItem`. -/
def renderListItem (cs : List RChild) : Wrapped :=
  if hasLatexChild cs then Wrapped.asIs cs else Wrapped.reveal cs

/-- `renderer.strong`. -/
def renderStrong (cs : List RChild) : Wrapped :=
  if hasLatexChild cs then Wrapped.asIs cs else Wrapped.reveal cs

/-- `renderer.link` (the href only feeds the anchor attributes). -/
def renderLink (href : List Char) (cs : List RChild) : Wrapped :=
  if hasLatexChild cs then Wrapped.asIs cs else Wrapped.reveal cs

/-- `renderer.heading` (the level only selects the tag and class). -/
def renderHeading (cs : List RChild) (level : Nat) : Wrapped :=
  if hasLatexChild cs then Wrapped.asIs cs else Wrapped.reveal cs

/-- `renderer.tableCell` (the header flag only selects the tag and class). -/
def renderTableCell (cs : List RChild) (isHeader : Bool) : Wrapped :=
  if hasLatexChild cs then Wrapped.asIs cs else Wrapped.reveal cs

/-- The children value `renderer.paragraph` receives: either a raw string
(`typeof children === "string"`) or rendered nodes. -/
inductive ParaChildren
  | str (s : List Char)
  | nodes (cs : List RChild)
deriving DecidableEq

/-- The paragraph output: either the centered display-math block
(`<div className="my-6 text-center"><Latex ...>content</Latex></div>`,
not nested in a `<p>`), or an ordinary `<p>` around the children. -/
inductive ParaOut
  | centeredMath (content : List Char)
  | pNode (w : Wrapped)
deriving DecidableEq

/-- `renderer.paragraph`: if the children are exactly a single block marker
string whose span exists and is a block span, emit the centered math block;
otherwise an ordinary paragraph with the children as-is (no reveal wrap and
no has-Latex-child check in this renderer). -/
def renderParagraph (spans : List Span) : ParaChildren → ParaOut
  | ParaChildren.str s =>
    if isSingleTok bPre s then
      match lookupSpan spans s with
      | some b =>
        if b.isBlock then ParaOut.centeredMath b.content
        else ParaOut.pNode (Wrapped.asIs [RChild.textC s])
      | none => ParaOut.pNode (Wrapped.asIs [RChild.textC s])
    else ParaOut.pNode (Wrapped.asIs [RChild.textC s])
  | ParaChildren.nodes cs => ParaOut.pNode (Wrapped.asIs cs)

/-! ## The top-level component

`isJson(children) ? <JsonView data={children} /> : <Marked ...>` — the JSON
branch shows the raw input string and never touches the extraction output.

Modelled from the spec: `isJson` lives in `lib/utils`, which is not part of
the analysed sources; it is taken as an abstract predicate parameter
meaning "the input string parses as JSON". -/

/-- The two possible top-level renders of the `Markdown` component. -/
inductive MarkdownOut
  | jsonView (raw : List Char)
  | markdownTree (processed : List Char) (spans : List Span)
deriving DecidableEq

/-- The `NonMemoizedMarkdown` component body. -/
def renderMarkdown (isJsonStr : List Char → Bool) (children : List Char) : MarkdownOut :=
  if isJsonStr children then MarkdownOut.jsonView children
  else MarkdownOut.markdownTree (extract children).1 (extract children).2

/-! ## Helper lemmas for the single-span round trip -/

theorem append4_singleton {α : Type} {a b c d : List α} {x : α}
    (h : a ++ b ++ c ++ d = [x]) :
    (a = [x] ∧ b = [] ∧ c = [] ∧ d = []) ∨ (a = [] ∧ b = [x] ∧ c = [] ∧ d = []) ∨
      (a = [] ∧ b = [] ∧ c = [x] ∧ d = []) ∨ (a = [] ∧ b = [] ∧ c = [] ∧ d = [x]) := by
  have hlen : a.length + b.length + c.length + d.length = 1 := by
    have := congrArg List.length h
    simp at this
    omega
  have hcase : (b.length = 0 ∧ c.length = 0 ∧ d.length = 0) ∨
      (a.length = 0 ∧ c.length = 0 ∧ d.length = 0) ∨
      (a.length = 0 ∧ b.length = 0 ∧ d.length = 0) ∨
      (a.length = 0 ∧ b.length = 0 ∧ c.length = 0) := by omega
  rcases hcase with ⟨e1, e2, e3⟩ | ⟨e1, e2, e3⟩ | ⟨e1, e2, e3⟩ | ⟨e1, e2, e3⟩ <;>
    rw [List.length_eq_zero] at e1 e2 e3 <;> subst e1 <;> subst e2 <;> subst e3 <;>
    simp at h
  · exact Or.inl ⟨h, rfl, rfl, rfl⟩
  · exact Or.inr (Or.inl ⟨rfl, h, rfl, rfl⟩)
  · exact Or.inr (Or.inr (Or.inl ⟨rfl, rfl, h, rfl⟩))
  · exact Or.inr (Or.inr (Or.inr ⟨rfl, rfl, rfl, h⟩))

/-- Resolving a stored span's own marker id hands the span's verbatim
content to the math engine, in the display mode of the marker's kind. -/
theorem resolveText_single_found (spans : List Span) (sp : Span) (b : Bool) (n : Nat)
    (hid : sp.id = markerId b n) (hfind : lookupSpan spans sp.id = some sp) :
    resolveText spans sp.id = [RUnit.math sp.id sp.content b] := by
  match b with
  | true =>
    have hsingle : isSingleTok bPre sp.id = true := by
      rw [hid]
      have := isSingleTok_markerId true n
      simpa using this
    have hfm : findMs bPre sp.id = [(0, sp.id)] := findMs_single (isSingleTok_iff.mp hsingle)
    have h0 : ¬(findMs bPre sp.id = [] ∧ findMs iPre sp.id = []) := by
      rw [hfm]
      simp
    unfold resolveText
    simp only [h0, if_neg, not_false_iff, hsingle, if_pos, hfind]
  | false =>
    have hsingle : isSingleTok iPre sp.id = true := by
      rw [hid]
      have := isSingleTok_markerId false n
      simpa using this
    have hshI : TokShape iPre sp.id := isSingleTok_shape hsingle
    have hbF : isSingleTok bPre sp.id = false := by
      cases hval : isSingleTok bPre sp.id with
      | false => rfl
      | true => exact absurd (tokShape_not_both (isSingleTok_shape hval) hshI) (by simp)
    have hfm : findMs iPre sp.id = [(0, sp.id)] := findMs_single (isSingleTok_iff.mp hsingle)
    have h0 : ¬(findMs bPre sp.id = [] ∧ findMs iPre sp.id = []) := by
      rw [hfm]
      simp
    unfold resolveText
    simp only [h0, if_neg, not_false_iff, hbF, Bool.false_eq_true, if_false, hsingle,
      if_pos, hfind]

/-- A span's content carries the original delimiters of its pattern. -/
def spanDelimited (sp : Span) : Prop :=
  if sp.isBlock then
    (∃ mid, sp.content = openBracket ++ mid ++ closeBracket) ∨
      ∃ mid, sp.content = dollars ++ mid ++ dollars
  else
    (∃ mid, sp.content = openParen ++ mid ++ closeParen) ∨
      ∃ mid, mid ≠ [] ∧ sp.content = '$' :: mid ++ ['$']

/-! ## The full return value of `renderer.text`

The three code paths of `renderer.text` return differently shaped elements:
the no-marker short-circuit returns a bare `WordByWordFadeIn`, the
single-marker fast path returns a bare `Latex` element, and the general
path returns `<span>{components}</span>`.  The span wrapper is observable
inside this module: the composite renderers detect math children by
`componentName === "Latex"` on their direct children, which sees a bare
`Latex` element but not one nested in a `span`. -/

/-- The element-level result of `renderer.text`. -/
inductive TextOut
  | reveal (t : List Char)
  | latex (content : List Char) (display : Bool)
  | spanWrap (us : List RUnit)
deriving DecidableEq

/-- `renderer.text` with the element-level result kept: the short-circuit's
bare reveal, the fast path's bare `Latex`, or the general path's
span-wrapped component list.  As in `resolveText`, a single-marker text
whose span lookup fails falls through to the general path (the intervening
check against the other single-marker shape cannot match the same text). -/
def renderText (spans : List Span) (text : List Char) : TextOut :=
  if findMs bPre text = [] ∧ findMs iPre text = [] then TextOut.reveal text
  else if isSingleTok bPre text = true then
    match lookupSpan spans text with
    | some b => TextOut.latex b.content true
    | none => TextOut.spanWrap (genUnits spans text)
  else if isSingleTok iPre text = true then
    match lookupSpan spans text with
    | some b => TextOut.latex b.content false
    | none => TextOut.spanWrap (genUnits spans text)
  else TextOut.spanWrap (genUnits spans text)

/-! ## Claim theorems -/

/-- C1: for every input whose extraction yields exactly one math span, the
span's stored `content` is byte-identical to a contiguous substring of the
original input, it still carries its original delimiters (never trimmed or
re-escaped), and resolving the span's marker hands exactly that stored
string to the math engine (`<Latex ...>{latexBlock.content}</Latex>`). -/
theorem c1_rawContent_roundtrip (raw : List Char) (sp : Span)
    (h : (extract raw).2 = [sp]) :
    (∃ p q, raw = p ++ sp.content ++ q) ∧ spanDelimited sp ∧
      resolveText (extract raw).2 sp.id = [RUnit.math sp.id sp.content sp.isBlock] := by
  have hid : sp.id = markerId sp.isBlock 0 := by
    have := extract_ids raw 0 sp (by rw [h]; rfl)
    simpa using this
  have hsplit : (pass1 raw).2 ++ (pass2 raw).2 ++ (pass3 raw).2 ++ (pass4 raw).2 = [sp] := by
    simpa [extract] using h
  have hmain : (∃ p q, raw = p ++ sp.content ++ q) ∧ spanDelimited sp := by
    rcases append4_singleton hsplit with ⟨ha, hb, hc, hd⟩ | ⟨ha, hb, hc, hd⟩ |
      ⟨ha, hb, hc, hd⟩ | ⟨ha, hb, hc, hd⟩
    · have hsub := (pass1_srel raw).content_sub attemptOk_blockBracket sp (by rw [ha]; simp)
      obtain ⟨⟨p, q, hpq, hm⟩, hbk⟩ := hsub
      obtain ⟨_, _, mid, hmid⟩ := attemptBlockBracket_eq hm
      exact ⟨⟨p, q, hpq⟩, by unfold spanDelimited; rw [hbk]; simp; exact Or.inl ⟨mid, hmid⟩⟩
    · have e1 : (pass1 raw).1 = raw := by
        have := pass1_srel raw
        rw [ha] at this
        exact this.out_eq_of_nil
      have hsub := (pass2_srel raw).content_sub attemptOk_dollarDollar sp (by rw [hb]; simp)
      obtain ⟨⟨p, q, hpq, hm⟩, hbk⟩ := hsub
      rw [e1] at hpq
      obtain ⟨_, _, mid, hmid⟩ := attemptDollarDollar_eq hm
      exact ⟨⟨p, q, hpq⟩, by unfold spanDelimited; rw [hbk]; simp; exact Or.inr ⟨mid, hmid⟩⟩
    · have e1 : (pass1 raw).1 = raw := by
        have := pass1_srel raw
        rw [ha] at this
        exact this.out_eq_of_nil
      have e2 : (pass2 raw).1 = raw := by
        have := pass2_srel raw
        rw [hb, e1] at this
        exact this.out_eq_of_nil
      have hsub := (pass3_srel raw).content_sub attemptOk_paren sp (by rw [hc]; simp)
      obtain ⟨⟨p, q, hpq, hm⟩, hbk⟩ := hsub
      rw [e2] at hpq
      obtain ⟨_, _, mid, hmid⟩ := attemptParen_eq hm
      refine ⟨⟨p, q, hpq⟩, ?_⟩
      unfold spanDelimited
      rw [hbk]
      simp
      exact Or.inl ⟨mid, hmid⟩
    · have e1 : (pass1 raw).1 = raw := by
        have := pass1_srel raw
        rw [ha] at this
        exact this.out_eq_of_nil
      have e2 : (pass2 raw).1 = raw := by
        have := pass2_srel raw
        rw [hb, e1] at this
        exact this.out_eq_of_nil
      have e3 : (pass3 raw).1 = raw := by
        have := pass3_srel raw
        rw [hc, e2] at this
        exact this.out_eq_of_nil
      have hsub := (pass4_srel raw).content_sub attemptOk_singleDollar sp (by rw [hd]; simp)
      obtain ⟨⟨p, q, hpq, hm⟩, hbk⟩ := hsub
      rw [e3] at hpq
      obtain ⟨_, _, mid, hmidne, hmid⟩ := attemptSingleDollar_eq hm
      refine ⟨⟨p, q, hpq⟩, ?_⟩
      unfold spanDelimited
      rw [hbk]
      simp
      exact Or.inr ⟨mid, hmidne, hmid⟩
  refine ⟨hmain.1, hmain.2, ?_⟩
  have hfind : lookupSpan (extract raw).2 sp.id = some sp :=
    lookupSpan_self (extract_nodup raw) sp (by rw [h]; simp)
  exact resolveText_single_found (extract raw).2 sp sp.isBlock 0 hid hfind

theorem c1_rawContent_roundtrip_witness :
    (∃ p q, "$$x$$".toList =
        p ++ (Span.mk ("LATEXBLOCK0END".toList) ("$$x$$".toList) true).content ++ q) ∧
      spanDelimited (Span.mk ("LATEXBLOCK0END".toList) ("$$x$$".toList) true) ∧
      resolveText (extract ("$$x$$".toList)).2
          (Span.mk ("LATEXBLOCK0END".toList) ("$$x$$".toList) true).id =
        [RUnit.math (Span.mk ("LATEXBLOCK0END".toList) ("$$x$$".toList) true).id
          (Span.mk ("LATEXBLOCK0END".toList) ("$$x$$".toList) true).content
          (Span.mk ("LATEXBLOCK0END".toList) ("$$x$$".toList) true).isBlock] :=
  c1_rawContent_roundtrip ("$$x$$".toList)
    (Span.mk ("LATEXBLOCK0END".toList) ("$$x$$".toList) true) (by decide)

/-- C2: block patterns are scanned before inline patterns, so
`"$$ a $$ and $ b $"` yields exactly one block span (`$$ a $$`) and one
inline span (`$ b $`), never three single-dollar inline spans; the
substituted text carries one block and one inline marker. -/
theorem c2_block_before_inline :
    (extract ("$$ a $$ and $ b $".toList)).2.map (fun sp => (sp.isBlock, sp.content)) =
        [(true, "$$ a $$".toList), (false, "$ b $".toList)] ∧
      (extract ("$$ a $$ and $ b $".toList)).1 =
        "LATEXBLOCK0END and LATEXINLINE1END".toList := by
  constructor <;> decide

/-- C3: the resolver's emitted unit sequence is an order-preserving
partition of the leaf text: literal units consume the gaps between matches
and the trailing text, each match (of either marker shape, merged and
sorted by start offset) consumes exactly its token, and concatenating the
consumed sources left to right restores the leaf text. -/
theorem c3_resolver_document_order (spans : List Span) (text : List Char) :
    unitsSrc (resolveText spans text) = text :=
  resolveText_src spans text

/-- C6: a marker-shaped token with no entry in the span store resolves to a
literal unit holding the marker's own text (never a failure); in particular
with an empty store every emitted unit is a literal and the units together
render the leaf text unchanged. -/
theorem c6_marker_without_span (spans : List Span) (text : List Char) :
    (∀ m ∈ mergedMs text, lookupSpan spans m.tok = none →
        RUnit.lit m.tok ∈ resolveText spans text) ∧
      (∀ u ∈ resolveText [] text, ∃ t, u = RUnit.lit t) ∧
      unitsSrc (resolveText [] text) = text :=
  ⟨fun m hm hn => resolveText_fallback spans text m hm hn,
    resolveText_empty_store_lit text, resolveText_src [] text⟩

theorem c6_marker_without_span_witness :
    RUnit.lit ("LATEXBLOCK0END".toList) ∈ resolveText [] ("LATEXBLOCK0END".toList) :=
  (c6_marker_without_span [] ("LATEXBLOCK0END".toList)).1
    (MMatch.mk 0 ("LATEXBLOCK0END".toList) true) (by decide) (by decide)

/-- C7 counterexample: on a leaf that is exactly one marker token with a
stored span, the shortcut returns a bare `Latex` element while the general
path would return the same single math unit wrapped in a `span`
(`<span>{components}</span>`), so the two paths' results are not
identical. -/
theorem c7_span_wrapper_counterexample :
    renderText [Span.mk ("LATEXBLOCK0END".toList) ("$$x$$".toList) true]
        ("LATEXBLOCK0END".toList) = TextOut.latex ("$$x$$".toList) true ∧
      genUnits [Span.mk ("LATEXBLOCK0END".toList) ("$$x$$".toList) true]
          ("LATEXBLOCK0END".toList) =
        [RUnit.math ("LATEXBLOCK0END".toList) ("$$x$$".toList) true] ∧
      renderText [Span.mk ("LATEXBLOCK0END".toList) ("$$x$$".toList) true]
          ("LATEXBLOCK0END".toList) ≠
        TextOut.spanWrap (genUnits [Span.mk ("LATEXBLOCK0END".toList) ("$$x$$".toList) true]
          ("LATEXBLOCK0END".toList)) := by
  refine ⟨by decide, by decide, by decide⟩

/-- C7 (amended): when the whole leaf text is exactly one marker token, the
shortcut and the general merged-scan path agree on the emitted content: at
the unit level the two paths coincide, and when the span is found the
general path's unit list is exactly the one math unit carrying the same
token, stored content and display mode as the shortcut's bare `Latex`
element; when the span is not found the shortcut falls through and the
result is literally the general path's.  The rendered results are however
not identical in the found case: the shortcut returns the bare `Latex`
element while the general path wraps its unit list in a `span` element. -/
theorem c7_single_marker_shortcut_amended (spans : List Span) (text : List Char)
    (h : isSingleTok bPre text = true ∨ isSingleTok iPre text = true) :
    resolveText spans text = genUnits spans text ∧
      (lookupSpan spans text = none →
        renderText spans text = TextOut.spanWrap (genUnits spans text)) ∧
      ∀ b, lookupSpan spans text = some b →
        ∃ d, genUnits spans text = [RUnit.math text b.content d] ∧
          renderText spans text = TextOut.latex b.content d ∧
          renderText spans text ≠ TextOut.spanWrap (genUnits spans text) := by
  have hiNotB : isSingleTok iPre text = true → isSingleTok bPre text = false := by
    intro hi
    cases hval : isSingleTok bPre text with
    | false => rfl
    | true =>
      exact absurd (tokShape_not_both (isSingleTok_shape hval) (isSingleTok_shape hi))
        (by simp)
  refine ⟨resolveText_single_eq_gen spans text h, ?_, ?_⟩
  · intro hnone
    rcases h with hb | hi
    · have hfm : findMs bPre text = [(0, text)] := findMs_single (isSingleTok_iff.mp hb)
      have h0 : ¬(findMs bPre text = [] ∧ findMs iPre text = []) := by
        rw [hfm]
        simp
      unfold renderText
      simp only [h0, if_neg, not_false_iff, hb, if_pos, hnone]
    · have hfm : findMs iPre text = [(0, text)] := findMs_single (isSingleTok_iff.mp hi)
      have h0 : ¬(findMs bPre text = [] ∧ findMs iPre text = []) := by
        rw [hfm]
        simp
      unfold renderText
      simp only [h0, if_neg, not_false_iff, hiNotB hi, Bool.false_eq_true, if_false, hi,
        if_pos, hnone]
  · intro b hfind
    rcases h with hb | hi
    · have hfm : findMs bPre text = [(0, text)] := findMs_single (isSingleTok_iff.mp hb)
      have h0 : ¬(findMs bPre text = [] ∧ findMs iPre text = []) := by
        rw [hfm]
        simp
      have hrt : renderText spans text = TextOut.latex b.content true := by
        unfold renderText
        simp only [h0, if_neg, not_false_iff, hb, if_pos, hfind]
      refine ⟨true, ?_, hrt, ?_⟩
      · rw [genUnits_single (mergedMs_single_block hb), hfind]
      · intro hcon
        rw [hrt] at hcon
        cases hcon
    · have hfm : findMs iPre text = [(0, text)] := findMs_single (isSingleTok_iff.mp hi)
      have h0 : ¬(findMs bPre text = [] ∧ findMs iPre text = []) := by
        rw [hfm]
        simp
      have hrt : renderText spans text = TextOut.latex b.content false := by
        unfold renderText
        simp only [h0, if_neg, not_false_iff, hiNotB hi, Bool.false_eq_true, if_false, hi,
          if_pos, hfind]
      refine ⟨false, ?_, hrt, ?_⟩
      · rw [genUnits_single (mergedMs_single_inline hi), hfind]
      · intro hcon
        rw [hrt] at hcon
        cases hcon

theorem c7_single_marker_shortcut_amended_witness :
    resolveText [Span.mk ("LATEXBLOCK0END".toList) ("$$x$$".toList) true]
        ("LATEXBLOCK0END".toList) =
      genUnits [Span.mk ("LATEXBLOCK0END".toList) ("$$x$$".toList) true]
        ("LATEXBLOCK0END".toList) :=
  (c7_single_marker_shortcut_amended [Span.mk ("LATEXBLOCK0END".toList) ("$$x$$".toList) true]
    ("LATEXBLOCK0END".toList) (Or.inl (by decide))).1

/-- C8: marker ids are generated as kind plus a sequence number from the
one counter shared by all passes (the store length), so the `i`-th stored
span has id `markerId isBlock i`, all ids are pairwise distinct, and
looking up any stored span's id finds exactly that span. -/
theorem c8_marker_ids_unique (raw : List Char) :
    (∀ i sp, (extract raw).2[i]? = some sp → sp.id = markerId sp.isBlock i) ∧
      ((extract raw).2.map Span.id).Nodup ∧
      ∀ sp ∈ (extract raw).2, lookupSpan (extract raw).2 sp.id = some sp := by
  refine ⟨?_, extract_nodup raw, ?_⟩
  · intro i sp hsp
    have := extract_ids raw i sp hsp
    simpa using this
  · intro sp hsp
    exact lookupSpan_self (extract_nodup raw) sp hsp

theorem c8_marker_ids_unique_witness :
    (Span.mk ("LATEXINLINE1END".toList) ("$ b $".toList) false).id =
      markerId (Span.mk ("LATEXINLINE1END".toList) ("$ b $".toList) false).isBlock 1 :=
  (c8_marker_ids_unique ("$$ a $$ and $ b $".toList)).1 1
    (Span.mk ("LATEXINLINE1END".toList) ("$ b $".toList) false) (by decide)

/-- C10: when the input string passes the JSON check, the component renders
the JSON viewer on the raw input string, not the markdown pipeline output.
(`isJson` is from `lib/utils`, outside the analysed sources; it is an
abstract predicate parameter here.) -/
theorem c10_json_bypass (isJsonStr : List Char → Bool) (s : List Char)
    (h : isJsonStr s = true) :
    renderMarkdown isJsonStr s = MarkdownOut.jsonView s ∧
      ∀ t sp, MarkdownOut.jsonView s ≠ MarkdownOut.markdownTree t sp := by
  constructor
  · simp [renderMarkdown, h]
  · intro t sp hcon
    cases hcon

theorem c10_json_bypass_witness :
    renderMarkdown (fun _ => true) ("null".toList) = MarkdownOut.jsonView ("null".toList) :=
  (c10_json_bypass (fun _ => true) ("null".toList) rfl).1

/-- C4 counterexample: the paragraph renderer does not apply the
has-math-child check and never wraps its children in the progressive
reveal: for math-free children the claim predicts a reveal wrap, but the
paragraph renders the children as-is. -/
theorem c4_paragraph_no_reveal_counterexample :
    hasLatexChild [RChild.textC ("hello".toList)] = false ∧
      renderParagraph [] (ParaChildren.nodes [RChild.textC ("hello".toList)]) =
        ParaOut.pNode (Wrapped.asIs [RChild.textC ("hello".toList)]) ∧
      renderParagraph [] (ParaChildren.nodes [RChild.textC ("hello".toList)]) ≠
        ParaOut.pNode (Wrapped.reveal [RChild.textC ("hello".toList)]) := by
  refine ⟨rfl, rfl, ?_⟩
  intro h
  simp [renderParagraph] at h

/-- C4 (amended): the six composite renderers `heading`, `listItem`,
`blockquote`, `strong`, `link` and `tableCell` each independently skip the
reveal wrap exactly when some rendered child is a math (`Latex`) render and
wrap otherwise; the paragraph renderer performs no such check and renders
its children as-is in the regular case. -/
theorem c4_wrapper_policy (cs : List RChild) (href : List Char) (level : Nat)
    (isHeader : Bool) (spans : List Span) :
    (hasLatexChild cs = true →
      renderHeading cs level = Wrapped.asIs cs ∧ renderListItem cs = Wrapped.asIs cs ∧
        renderBlockquote cs = Wrapped.asIs cs ∧ renderStrong cs = Wrapped.asIs cs ∧
        renderLink href cs = Wrapped.asIs cs ∧ renderTableCell cs isHeader = Wrapped.asIs cs) ∧
      (hasLatexChild cs = false →
        renderHeading cs level = Wrapped.reveal cs ∧ renderListItem cs = Wrapped.reveal cs ∧
          renderBlockquote cs = Wrapped.reveal cs ∧ renderStrong cs = Wrapped.reveal cs ∧
          renderLink href cs = Wrapped.reveal cs ∧
          renderTableCell cs isHeader = Wrapped.reveal cs) ∧
      renderParagraph spans (ParaChildren.nodes cs) = ParaOut.pNode (Wrapped.asIs cs) := by
  refine ⟨?_, ?_, rfl⟩
  · intro h
    simp [renderHeading, renderListItem, renderBlockquote, renderStrong, renderLink,
      renderTableCell, h]
  · intro h
    simp [renderHeading, renderListItem, renderBlockquote, renderStrong, renderLink,
      renderTableCell, h]

theorem c4_wrapper_policy_witness :
    renderListItem [RChild.latexC ("$$x$$".toList) true] =
      Wrapped.asIs [RChild.latexC ("$$x$$".toList) true] :=
  ((c4_wrapper_policy [RChild.latexC ("$$x$$".toList) true] [] 1 false []).1 (by decide)).2.1

/-- C5: a paragraph whose content after structural parsing is exactly one
block marker string whose stored span is a block span renders as the
centered display block (`div.my-6.text-center`), which is not a paragraph
node. -/
theorem c5_standalone_block_paragraph (spans : List Span) (s : List Char) (b : Span)
    (hs : isSingleTok bPre s = true) (hfind : lookupSpan spans s = some b)
    (hb : b.isBlock = true) :
    renderParagraph spans (ParaChildren.str s) = ParaOut.centeredMath b.content ∧
      ∀ w, ParaOut.centeredMath b.content ≠ ParaOut.pNode w := by
  constructor
  · simp [renderParagraph, hs, hfind, hb]
  · intro w hcon
    cases hcon

theorem c5_standalone_block_paragraph_witness :
    renderParagraph (extract ("\\[ x = 1 \\]".toList)).2
        (ParaChildren.str ("LATEXBLOCK0END".toList)) =
      ParaOut.centeredMath
        (Span.mk ("LATEXBLOCK0END".toList) ("\\[ x = 1 \\]".toList) true).content :=
  (c5_standalone_block_paragraph (extract ("\\[ x = 1 \\]".toList)).2
    ("LATEXBLOCK0END".toList)
    (Span.mk ("LATEXBLOCK0END".toList) ("\\[ x = 1 \\]".toList) true)
    (by decide) (by decide) (by decide)).1

/-- C9 counterexample: `"aLATEXBLOCK0ENDb"` contains no delimiter match, so
extraction is the identity with an empty store, yet the final render is not
the single literal unit the structural parser alone would produce: the
resolver splits the leaf around the marker-shaped substring. -/
theorem c9_render_equality_counterexample :
    hasAtt attemptBlockBracket ("aLATEXBLOCK0ENDb".toList) = false ∧
      hasAtt attemptDollarDollar ("aLATEXBLOCK0ENDb".toList) = false ∧
      hasAtt attemptParen ("aLATEXBLOCK0ENDb".toList) = false ∧
      hasAtt attemptSingleDollar ("aLATEXBLOCK0ENDb".toList) = false ∧
      extract ("aLATEXBLOCK0ENDb".toList) = ("aLATEXBLOCK0ENDb".toList, []) ∧
      resolveText [] ("aLATEXBLOCK0ENDb".toList) ≠ [RUnit.lit ("aLATEXBLOCK0ENDb".toList)] := by
  refine ⟨by decide, by decide, by decide, by decide, by decide, by decide⟩

/-- C9 (amended): when no delimiter pattern matches the input, extraction
returns the text unchanged with an empty span store; and a leaf in which,
additionally, no marker-shaped token occurs resolves to the single literal
unit the structural parser alone would render. -/
theorem c9_no_match_identity (raw leaf : List Char) (spans : List Span)
    (h1 : hasAtt attemptBlockBracket raw = false)
    (h2 : hasAtt attemptDollarDollar raw = false)
    (h3 : hasAtt attemptParen raw = false)
    (h4 : hasAtt attemptSingleDollar raw = false)
    (hleafB : findMs bPre leaf = []) (hleafI : findMs iPre leaf = []) :
    extract raw = (raw, []) ∧ resolveText spans leaf = [RUnit.lit leaf] :=
  ⟨extract_no_match h1 h2 h3 h4, resolveText_no_marker spans leaf hleafB hleafI⟩

theorem c9_no_match_identity_witness :
    extract ("hello $ world".toList) = ("hello $ world".toList, []) ∧
      resolveText [] ("hello $ world".toList) = [RUnit.lit ("hello $ world".toList)] :=
  c9_no_match_identity ("hello $ world".toList) ("hello $ world".toList) []
    (by decide) (by decide) (by decide) (by decide) (by decide) (by decide)
